import Mathlib

set_option autoImplicit false

/-!
Shallow embedding of `src/minesweeper.py` (classes `Sentence` and
`MinesweeperAI`).  Python sets of cells are modelled as duplicate-free
`List Cell` (insertion keeps order stable); Python integers are `Int`.
The random draws consumed by `make_random_move` (`random.randrange`) are
passed in as explicit parameters.
-/

namespace Minesweeper

/-- A board cell `(i, j)`, as the Python tuple of two ints. -/
abbrev Cell : Type := Int × Int

/-- `class Sentence`: a set of cells together with a count. -/
structure Sentence where
  cells : List Cell
  count : Int
deriving DecidableEq, Repr

/-- Python `Sentence.__eq__`: set equality of `cells` plus equality of `count`. -/
def Sentence.seteq (s t : Sentence) : Bool :=
  s.cells.all (fun c => decide (c ∈ t.cells)) &&
  t.cells.all (fun c => decide (c ∈ s.cells)) &&
  decide (s.count = t.count)

/-- `Sentence.known_mines`: all cells if `len(cells) == count`, else empty. -/
def Sentence.known_mines (s : Sentence) : List Cell :=
  if (s.cells.length : Int) = s.count then s.cells else []

/-- `Sentence.known_safes`: all cells if `count == 0`, else empty. -/
def Sentence.known_safes (s : Sentence) : List Cell :=
  if s.count = 0 then s.cells else []

/-- `Sentence.mark_mine`: if the cell is present, discard it and decrement
the count (the Python loop over a clone with `break` does exactly this). -/
def Sentence.mark_mine (s : Sentence) (cell : Cell) : Sentence :=
  if cell ∈ s.cells then
    { cells := s.cells.filter (fun c => decide (c ≠ cell)), count := s.count - 1 }
  else s

/-- `Sentence.mark_safe`: discard the cell, count unchanged. -/
def Sentence.mark_safe (s : Sentence) (cell : Cell) : Sentence :=
  { cells := s.cells.filter (fun c => decide (c ≠ cell)), count := s.count }

/-- Python `set.add` on the list model: append if not already present. -/
def setAdd (x : Cell) (l : List Cell) : List Cell :=
  if x ∈ l then l else l ++ [x]

/-- Python `x in knowledge` (list membership via `Sentence.__eq__`). -/
def inKB (s : Sentence) (kb : List Sentence) : Bool :=
  kb.any (fun t => Sentence.seteq t s)

/-- Python `list.remove(x)`: drop the first element equal (as a Sentence) to
`x`; total (`clean_identical_sentences` wraps the call in `try/except`). -/
def removeFirst (x : Sentence) : List Sentence → List Sentence
  | [] => []
  | s :: rest => if Sentence.seteq s x then rest else s :: removeFirst x rest

/-- `class MinesweeperAI`: engine state. -/
structure MinesweeperAI where
  height : Int
  width : Int
  moves_made : List Cell
  mines : List Cell
  safes : List Cell
  knowledge : List Sentence
deriving DecidableEq, Repr

namespace MinesweeperAI

/-- `MinesweeperAI.__init__`. -/
def init (height width : Int) : MinesweeperAI :=
  { height := height, width := width, moves_made := [], mines := [],
    safes := [], knowledge := [] }

/-- `MinesweeperAI.mark_mine`: propagate a known mine into every sentence. -/
def mark_mine (e : MinesweeperAI) (cell : Cell) : MinesweeperAI :=
  { e with knowledge := e.knowledge.map (fun s => s.mark_mine cell) }

/-- `MinesweeperAI.mark_safe`: propagate a known safe into every sentence. -/
def mark_safe (e : MinesweeperAI) (cell : Cell) : MinesweeperAI :=
  { e with knowledge := e.knowledge.map (fun s => s.mark_safe cell) }

/-- Python `range(a, b)` over integers. -/
def intRange (a b : Int) : List Int :=
  (List.range (b - a).toNat).map (fun k => a + Int.ofNat k)

/-- `MinesweeperAI.neighbors`: the in-bounds cells within one row and one
column of `cell`, excluding `cell` itself, in the source's loop order. -/
def neighbors (e : MinesweeperAI) (cell : Cell) : List Cell :=
  (intRange (cell.1 - 1) (cell.1 + 2)).flatMap (fun i =>
    (intRange (cell.2 - 1) (cell.2 + 2)).filterMap (fun j =>
      if (i, j) = cell then none
      else if 0 ≤ i ∧ i < e.height ∧ 0 ≤ j ∧ j < e.width then some (i, j)
      else none))

/-- Inner loop of `mark_mines_safes` over `mines_of_sentence`:
`self.mark_mine(cell); self.mines.add(cell)` for each cell. -/
def applyMines (e : MinesweeperAI) : List Cell → MinesweeperAI
  | [] => e
  | c :: rest =>
    let e1 := e.mark_mine c
    applyMines { e1 with mines := setAdd c e1.mines } rest

/-- Inner loop of `mark_mines_safes` over `safes_of_sentence`:
if the cell is not a made move, `self.mark_safe(cell); self.safes.add(cell)`. -/
def applySafes (e : MinesweeperAI) : List Cell → MinesweeperAI
  | [] => e
  | c :: rest =>
    applySafes
      (if c ∈ e.moves_made then e
       else
         let e1 := e.mark_safe c
         { e1 with safes := setAdd c e1.safes }) rest

/-- One iteration of the `for sentence in self.knowledge` loop of
`mark_mines_safes`: snapshot the sentence's known mines and safes, then
process both lists. -/
def mmsStep (e : MinesweeperAI) (i : Nat) : MinesweeperAI :=
  match e.knowledge.get? i with
  | none => e
  | some s => applySafes (applyMines e s.known_mines) s.known_safes

/-- `MinesweeperAI.mark_mines_safes`: iterate over the (fixed-length)
knowledge list by position; the sentences mutate as facts propagate. -/
def mark_mines_safes (e : MinesweeperAI) : MinesweeperAI :=
  (List.range e.knowledge.length).foldl mmsStep e

/-- `MinesweeperAI.clean_empty_sentences`: iterate over a snapshot, removing
each sentence with an empty cell set from the live list. -/
def clean_empty_sentences (e : MinesweeperAI) : MinesweeperAI :=
  { e with knowledge :=
      (e.knowledge.foldl
        (fun kb s => if s.cells = [] then removeFirst s kb else kb)
        e.knowledge) }

/-- Body of `clean_identical_sentences`: for each snapshot position, compare
with every later snapshot position and remove a matching sentence from the
live list (a failed `remove` is swallowed by the source's `try/except`). -/
def cleanIdGo : List Sentence → List Sentence → List Sentence
  | [], kb => kb
  | s :: rest, kb =>
    cleanIdGo rest
      (rest.foldl (fun kb2 t => if Sentence.seteq s t then removeFirst s kb2 else kb2) kb)

/-- `MinesweeperAI.clean_identical_sentences`. -/
def clean_identical_sentences (e : MinesweeperAI) : MinesweeperAI :=
  { e with knowledge := cleanIdGo e.knowledge e.knowledge }

/-- `MinesweeperAI.clean_exceuted_safes` (source spelling): iterate over a
snapshot of `safes`, removing every cell that is already in `moves_made`. -/
def clean_exceuted_safes (e : MinesweeperAI) : MinesweeperAI :=
  { e with safes :=
      (e.safes.foldl
        (fun sf c =>
          if c ∈ e.moves_made then sf.filter (fun d => decide (d ≠ c)) else sf)
        e.safes) }

/-- Python `abs` on an int. -/
def pyAbs (x : Int) : Int := if x < 0 then -x else x

/-- The candidate sentence the subset-inference step builds for the ordered
pair `(s, s1)`: the source's `is_subset` (the cell difference
`sentence1.cells - sentence.cells` with cells already in `moves_made`,
`safes` or `mines` discarded) and `count_subset`
(`abs(sentence1.count - sentence.count)`). -/
def subCandidate (moves safes mines : List Cell) (s s1 : Sentence) : Sentence :=
  { cells :=
      (s1.cells.filter (fun c => decide (c ∉ s.cells))).filter
        (fun c => decide (¬(c ∈ moves ∨ c ∈ safes ∨ c ∈ mines))),
    count := pyAbs (s1.count - s.count) }

/-- One inner iteration of the subset-inference double loop of
`add_knowledge`: for the ordered pair `(s, s1)`, if `s.cells` is a subset of
`s1.cells`, build the candidate and queue it unless it is already in the
knowledge base.  The second component threads the source's `count_subset`
variable (initialised to `-1` outside both loops). -/
def subStep (kb : List Sentence) (moves safes mines : List Cell)
    (st : List Sentence × Int) (s s1 : Sentence) : List Sentence × Int :=
  if s.cells.all (fun c => decide (c ∈ s1.cells)) then
    let cand := subCandidate moves safes mines s s1
    if cand.cells ≠ [] ∧ cand.count ≠ -1 then
      if inKB cand kb then (st.1, cand.count)
      else (st.1 ++ [cand], cand.count)
    else (st.1, cand.count)
  else st

/-- The subset-inference pass of `add_knowledge`: scan all ordered pairs of
sentences in a snapshot of the knowledge base and collect `sub_sentences`. -/
def subInfer (kb : List Sentence) (moves safes mines : List Cell) : List Sentence :=
  (kb.foldl (fun st s => kb.foldl (fun st2 s1 => subStep kb moves safes mines st2 s s1) st)
    ([], -1)).1

/-- Step 1 of `add_knowledge`: `self.moves_made.add(cell)`. -/
def add_move (e : MinesweeperAI) (cell : Cell) : MinesweeperAI :=
  { e with moves_made := setAdd cell e.moves_made }

/-- Step 3 of `add_knowledge`: build a sentence from the neighbors of `cell`,
decrementing the count for each neighbor already known to be a mine and
dropping neighbors already known safe or already moved; append it to the
knowledge base if non-empty and not already present. -/
def add_sentence (e : MinesweeperAI) (cell : Cell) (count : Int) : MinesweeperAI :=
  let p := (e.neighbors cell).foldl
      (fun (acc : List Cell × Int) c1 =>
        if c1 ∈ e.mines then (acc.1, acc.2 - 1)
        else if c1 ∈ e.safes ∨ c1 ∈ e.moves_made then acc
        else (acc.1 ++ [c1], acc.2))
      ([], count)
  if p.1 ≠ [] then
    if inKB { cells := p.1, count := p.2 } e.knowledge then e
    else { e with knowledge := e.knowledge ++ [{ cells := p.1, count := p.2 }] }
  else e

/-- Step 5 of `add_knowledge`: append all inferred `sub_sentences`. -/
def subset_pass (e : MinesweeperAI) : MinesweeperAI :=
  { e with knowledge :=
      e.knowledge ++ subInfer e.knowledge e.moves_made e.safes e.mines }

/-- `MinesweeperAI.add_knowledge`, the full pipeline in the source's order:
record the move, mark the cell safe in all sentences, add the neighbor
sentence, resolve and clean, run subset inference, resolve and clean again,
and drop executed safes. -/
def add_knowledge (e : MinesweeperAI) (cell : Cell) (count : Int) : MinesweeperAI :=
  ((((add_sentence ((add_move e cell).mark_safe cell) cell count
      ).mark_mines_safes.clean_empty_sentences.clean_identical_sentences
     ).subset_pass
    ).mark_mines_safes.clean_empty_sentences.clean_identical_sentences).clean_exceuted_safes

/-- `MinesweeperAI.make_safe_move`: first cell of `safes` that is neither a
made move nor a known mine, else `None`. -/
def make_safe_move (e : MinesweeperAI) : Option Cell :=
  e.safes.find? (fun c => decide (c ∉ e.moves_made ∧ c ∉ e.mines))

/-- `MinesweeperAI.make_random_move`; `rh` is the draw
`random.randrange(self.height)` and `rws row` the draw
`random.randrange(self.width)` made at outer iteration `row`.  The source
scans `(row, col)` for `row` in `range(rh)` and `col` in `range(rws row)`
and returns the first cell that is neither a known mine nor a made move. -/
def make_random_move (e : MinesweeperAI) (rh : Nat) (rws : Nat → Nat) : Option Cell :=
  ((List.range rh).flatMap (fun row =>
      (List.range (rws row)).map (fun col => (Int.ofNat row, Int.ofNat col)))).find?
    (fun c => decide (c ∉ e.mines ∧ c ∉ e.moves_made))

end MinesweeperAI

/-- Run a sequence of `add_knowledge` calls on a fresh engine. -/
def runCalls (height width : Int) (calls : List (Cell × Int)) : MinesweeperAI :=
  calls.foldl (fun e p => e.add_knowledge p.1 p.2) (MinesweeperAI.init height width)

/-! ### Basic lemmas about the set model -/

theorem mem_setAdd {x c : Cell} {l : List Cell} : x ∈ setAdd c l ↔ x ∈ l ∨ x = c := by
  unfold setAdd
  by_cases h : c ∈ l
  · rw [if_pos h]
    exact ⟨Or.inl, fun hx => hx.elim id (fun hxc => hxc ▸ h)⟩
  · rw [if_neg h]
    simp

theorem mem_filter_ne {x c : Cell} {l : List Cell} :
    x ∈ l.filter (fun d => decide (d ≠ c)) ↔ x ∈ l ∧ x ≠ c := by
  simp [List.mem_filter]

theorem Sentence.mark_mine_cells_sub {s : Sentence} {c x : Cell}
    (h : x ∈ (s.mark_mine c).cells) : x ∈ s.cells := by
  unfold Sentence.mark_mine at h
  split at h
  · exact (mem_filter_ne.mp h).1
  · exact h

theorem Sentence.mark_mine_not_mem (s : Sentence) (c : Cell) :
    c ∉ (s.mark_mine c).cells := by
  unfold Sentence.mark_mine
  split
  · exact fun h => (mem_filter_ne.mp h).2 rfl
  · assumption

theorem Sentence.mark_safe_cells_sub {s : Sentence} {c x : Cell}
    (h : x ∈ (s.mark_safe c).cells) : x ∈ s.cells :=
  (mem_filter_ne.mp h).1

theorem Sentence.mark_safe_not_mem (s : Sentence) (c : Cell) :
    c ∉ (s.mark_safe c).cells :=
  fun h => (mem_filter_ne.mp h).2 rfl

theorem Sentence.known_mines_sub {s : Sentence} {c : Cell}
    (h : c ∈ s.known_mines) : c ∈ s.cells := by
  unfold Sentence.known_mines at h
  split at h
  · exact h
  · cases h

theorem Sentence.known_safes_sub {s : Sentence} {c : Cell}
    (h : c ∈ s.known_safes) : c ∈ s.cells := by
  unfold Sentence.known_safes at h
  split at h
  · exact h
  · cases h

/-- A sentence never resolves both mines and safes: one of the two snapshot
lists is empty. -/
theorem Sentence.known_disjoint (s : Sentence) :
    s.known_mines = [] ∨ s.known_safes = [] := by
  by_cases h0 : s.count = 0
  · by_cases hl : (s.cells.length : Int) = s.count
    · left
      have : s.cells.length = 0 := by omega
      unfold Sentence.known_mines
      rw [if_pos hl]
      exact List.length_eq_zero.mp this
    · left
      unfold Sentence.known_mines
      rw [if_neg hl]
  · right
    unfold Sentence.known_safes
    rw [if_neg h0]

/-- A generic preservation principle for `List.foldl`. -/
theorem foldl_inv {α : Type} {β : Type} {P : α → Prop} {step : α → β → α}
    (hstep : ∀ a b, P a → P (step a b)) :
    ∀ (l : List β) (a : α), P a → P (l.foldl step a)
  | [], _, ha => ha
  | b :: l, a, ha => foldl_inv hstep l (step a b) (hstep a b ha)

/-! ### C9: idempotence of Sentence.mark_mine / Sentence.mark_safe -/

/-- C9: for every Sentence `s` and cell `c`, calling `mark_mine` twice in a
row leaves `s` in the same state as calling it once, and likewise for
`mark_safe`. -/
theorem C9_mark_mine_safe_idempotent (s : Sentence) (c : Cell) :
    (s.mark_mine c).mark_mine c = s.mark_mine c ∧
    (s.mark_safe c).mark_safe c = s.mark_safe c := by
  constructor
  · by_cases hc : c ∈ s.cells
    · have h2 : c ∉ s.cells.filter (fun d => decide (d ≠ c)) :=
        fun hmem => (mem_filter_ne.mp hmem).2 rfl
      simp only [Sentence.mark_mine, if_pos hc, if_neg h2]
    · simp only [Sentence.mark_mine, if_neg hc]
  · simp only [Sentence.mark_safe, Sentence.mk.injEq, and_true]
    apply List.filter_eq_self.mpr
    intro a ha
    simpa using (mem_filter_ne.mp ha).2

/-! ### C10: make_random_move never returns a cell in the last row/column -/

/-- C10: for every engine with `height ≥ 1` and `width ≥ 1` and every valid
outcome of the `random.randrange` draws (`rh < height`, each `rws r < width`),
if `make_random_move` returns a cell `(i, j)` then `i ≤ height - 2` and
`j ≤ width - 2`: the last row and last column are never returned. -/
theorem C10_random_move_avoids_last_row_col (e : MinesweeperAI) (rh : Nat)
    (rws : Nat → Nat) (i j : Int)
    (hh : 1 ≤ e.height) (hw : 1 ≤ e.width)
    (hrh : (rh : Int) < e.height) (hrws : ∀ r, (rws r : Int) < e.width)
    (hres : e.make_random_move rh rws = some (i, j)) :
    i ≤ e.height - 2 ∧ j ≤ e.width - 2 := by
  have hmem := List.mem_of_find?_eq_some hres
  rw [List.mem_flatMap] at hmem
  obtain ⟨row, hrow, hmem2⟩ := hmem
  rw [List.mem_map] at hmem2
  obtain ⟨col, hcol, heq⟩ := hmem2
  rw [List.mem_range] at hrow
  rw [List.mem_range] at hcol
  cases heq
  simp only [Int.ofNat_eq_natCast]
  constructor
  · have h1 : (row : Int) < (rh : Int) := by exact_mod_cast hrow
    omega
  · have h1 : (col : Int) < (rws row : Int) := by exact_mod_cast hcol
    have h2 := hrws row
    omega

/-- Witness for C10 at a concrete input: on a fresh 2×2 engine, with draws
`rh = 1` and `rws _ = 1`, the move returned is `(0, 0)`, and the bounds from
the theorem hold. -/
theorem C10_witness :
    (MinesweeperAI.init 2 2).make_random_move 1 (fun _ => 1) = some (0, 0) ∧
    (0 : Int) ≤ (MinesweeperAI.init 2 2).height - 2 ∧
    (0 : Int) ≤ (MinesweeperAI.init 2 2).width - 2 := by
  have hres : (MinesweeperAI.init 2 2).make_random_move 1 (fun _ => 1) = some (0, 0) := by
    decide
  refine ⟨hres, ?_⟩
  exact C10_random_move_avoids_last_row_col (MinesweeperAI.init 2 2) 1 (fun _ => 1) 0 0
    (by norm_num [MinesweeperAI.init]) (by norm_num [MinesweeperAI.init])
    (by norm_num [MinesweeperAI.init]) (fun r => by norm_num [MinesweeperAI.init]) hres

/-! ### C4: make_random_move can return None while a cell is available -/

/-- C4 (code bug): on a fresh 1×1 engine the cell `(0, 0)` is neither a known
mine nor a made move, yet `make_random_move` returns `None`: the only
possible draw of `random.randrange(1)` is `0`, so `range(randrange(height))`
is empty and no cell is ever examined.  This contradicts the claim (and the
method's own docstring) that a cell not already chosen and not known to be a
mine is chosen whenever one exists. -/
theorem C4_random_move_none_with_available_cell :
    (MinesweeperAI.init 1 1).make_random_move 0 (fun _ => 0) = none ∧
    ((0 : Int), (0 : Int)) ∉ (MinesweeperAI.init 1 1).mines ∧
    ((0 : Int), (0 : Int)) ∉ (MinesweeperAI.init 1 1).moves_made := by
  refine ⟨rfl, ?_, ?_⟩ <;> simp [MinesweeperAI.init]

/-! ### Field-preservation lemmas for the pipeline stages -/

namespace MinesweeperAI

theorem applyMines_moves (l : List Cell) : ∀ e : MinesweeperAI,
    (applyMines e l).moves_made = e.moves_made := by
  induction l with
  | nil => intro e; rfl
  | cons c t ih => intro e; simp only [applyMines]; exact ih _

theorem applyMines_safes (l : List Cell) : ∀ e : MinesweeperAI,
    (applyMines e l).safes = e.safes := by
  induction l with
  | nil => intro e; rfl
  | cons c t ih => intro e; simp only [applyMines]; exact ih _

theorem applyMines_height (l : List Cell) : ∀ e : MinesweeperAI,
    (applyMines e l).height = e.height := by
  induction l with
  | nil => intro e; rfl
  | cons c t ih => intro e; simp only [applyMines]; exact ih _

theorem applyMines_width (l : List Cell) : ∀ e : MinesweeperAI,
    (applyMines e l).width = e.width := by
  induction l with
  | nil => intro e; rfl
  | cons c t ih => intro e; simp only [applyMines]; exact ih _

theorem applyMines_mines_mem (l : List Cell) : ∀ (e : MinesweeperAI) (x : Cell),
    (x ∈ (applyMines e l).mines ↔ x ∈ e.mines ∨ x ∈ l) := by
  induction l with
  | nil => intro e x; simp [applyMines]
  | cons c t ih =>
    intro e x
    simp only [applyMines]
    rw [ih]
    simp only [mem_setAdd, List.mem_cons]
    tauto

theorem applySafes_moves (l : List Cell) : ∀ e : MinesweeperAI,
    (applySafes e l).moves_made = e.moves_made := by
  induction l with
  | nil => intro e; rfl
  | cons c t ih =>
    intro e
    simp only [applySafes]
    rw [ih]
    split <;> rfl

theorem applySafes_mines (l : List Cell) : ∀ e : MinesweeperAI,
    (applySafes e l).mines = e.mines := by
  induction l with
  | nil => intro e; rfl
  | cons c t ih =>
    intro e
    simp only [applySafes]
    rw [ih]
    split <;> rfl

theorem applySafes_height (l : List Cell) : ∀ e : MinesweeperAI,
    (applySafes e l).height = e.height := by
  induction l with
  | nil => intro e; rfl
  | cons c t ih =>
    intro e
    simp only [applySafes]
    rw [ih]
    split <;> rfl

theorem applySafes_width (l : List Cell) : ∀ e : MinesweeperAI,
    (applySafes e l).width = e.width := by
  induction l with
  | nil => intro e; rfl
  | cons c t ih =>
    intro e
    simp only [applySafes]
    rw [ih]
    split <;> rfl

theorem applySafes_safes_mem (l : List Cell) : ∀ (e : MinesweeperAI) (x : Cell),
    (x ∈ (applySafes e l).safes ↔
      x ∈ e.safes ∨ (x ∈ l ∧ x ∉ e.moves_made)) := by
  induction l with
  | nil => intro e x; simp [applySafes]
  | cons c t ih =>
    intro e x
    simp only [applySafes]
    by_cases hc : c ∈ e.moves_made
    · rw [if_pos hc, ih]
      simp only [List.mem_cons]
      constructor
      · rintro (h | ⟨h1, h2⟩)
        · exact Or.inl h
        · exact Or.inr ⟨Or.inr h1, h2⟩
      · rintro (h | ⟨h1 | h1, h2⟩)
        · exact Or.inl h
        · exact absurd (h1 ▸ hc) h2
        · exact Or.inr ⟨h1, h2⟩
    · rw [if_neg hc, ih]
      simp only [MinesweeperAI.mark_safe, mem_setAdd, List.mem_cons]
      constructor
      · rintro ((h | rfl) | ⟨h1, h2⟩)
        · exact Or.inl h
        · exact Or.inr ⟨Or.inl rfl, hc⟩
        · exact Or.inr ⟨Or.inr h1, h2⟩
      · rintro (h | ⟨h1 | h1, h2⟩)
        · exact Or.inl (Or.inl h)
        · exact Or.inl (Or.inr h1)
        · exact Or.inr ⟨h1, h2⟩

theorem applySafes_safes_sub (l : List Cell) (e : MinesweeperAI) {x : Cell}
    (h : x ∈ e.safes) : x ∈ (applySafes e l).safes :=
  (applySafes_safes_mem l e x).mpr (Or.inl h)

theorem mmsStep_moves (e : MinesweeperAI) (i : Nat) :
    (mmsStep e i).moves_made = e.moves_made := by
  unfold mmsStep
  cases e.knowledge.get? i with
  | none => rfl
  | some s => rw [applySafes_moves, applyMines_moves]

theorem mmsStep_height (e : MinesweeperAI) (i : Nat) :
    (mmsStep e i).height = e.height := by
  unfold mmsStep
  cases e.knowledge.get? i with
  | none => rfl
  | some s => rw [applySafes_height, applyMines_height]

theorem mmsStep_width (e : MinesweeperAI) (i : Nat) :
    (mmsStep e i).width = e.width := by
  unfold mmsStep
  cases e.knowledge.get? i with
  | none => rfl
  | some s => rw [applySafes_width, applyMines_width]

theorem mmsStep_safes_sub (e : MinesweeperAI) (i : Nat) {x : Cell}
    (h : x ∈ e.safes) : x ∈ (mmsStep e i).safes := by
  unfold mmsStep
  cases e.knowledge.get? i with
  | none => exact h
  | some s =>
    apply applySafes_safes_sub
    rw [applyMines_safes]
    exact h

theorem mark_mines_safes_moves (e : MinesweeperAI) :
    (mark_mines_safes e).moves_made = e.moves_made := by
  unfold mark_mines_safes
  exact foldl_inv (fun a i ha => (mmsStep_moves a i).trans ha) _ e rfl

theorem mark_mines_safes_height (e : MinesweeperAI) :
    (mark_mines_safes e).height = e.height := by
  unfold mark_mines_safes
  exact foldl_inv (fun a i ha => (mmsStep_height a i).trans ha) _ e rfl

theorem mark_mines_safes_width (e : MinesweeperAI) :
    (mark_mines_safes e).width = e.width := by
  unfold mark_mines_safes
  exact foldl_inv (fun a i ha => (mmsStep_width a i).trans ha) _ e rfl

theorem mark_mines_safes_safes_sub (e : MinesweeperAI) {x : Cell}
    (h : x ∈ e.safes) : x ∈ (mark_mines_safes e).safes := by
  unfold mark_mines_safes
  exact foldl_inv (fun a i ha => mmsStep_safes_sub a i ha) _ e h

theorem add_move_moves (e : MinesweeperAI) (c : Cell) :
    (add_move e c).moves_made = setAdd c e.moves_made := rfl

theorem add_sentence_moves (e : MinesweeperAI) (c : Cell) (n : Int) :
    (add_sentence e c n).moves_made = e.moves_made := by
  simp only [add_sentence]
  split
  · split <;> rfl
  · rfl

theorem add_sentence_safes (e : MinesweeperAI) (c : Cell) (n : Int) :
    (add_sentence e c n).safes = e.safes := by
  simp only [add_sentence]
  split
  · split <;> rfl
  · rfl

theorem add_sentence_mines (e : MinesweeperAI) (c : Cell) (n : Int) :
    (add_sentence e c n).mines = e.mines := by
  simp only [add_sentence]
  split
  · split <;> rfl
  · rfl

theorem add_sentence_height (e : MinesweeperAI) (c : Cell) (n : Int) :
    (add_sentence e c n).height = e.height := by
  simp only [add_sentence]
  split
  · split <;> rfl
  · rfl

theorem add_sentence_width (e : MinesweeperAI) (c : Cell) (n : Int) :
    (add_sentence e c n).width = e.width := by
  simp only [add_sentence]
  split
  · split <;> rfl
  · rfl

/-! ### Lemmas about clean_exceuted_safes (the final safes cleanup) -/

theorem cesFold_sub (mv : List Cell) :
    ∀ (l sf : List Cell) (x : Cell),
      x ∈ l.foldl
        (fun sf c => if c ∈ mv then sf.filter (fun d => decide (d ≠ c)) else sf) sf →
      x ∈ sf := by
  intro l
  induction l with
  | nil => intro sf x h; exact h
  | cons c t ih =>
    intro sf x h
    have h2 : x ∈ if c ∈ mv then sf.filter (fun d => decide (d ≠ c)) else sf := ih _ x h
    by_cases hc : c ∈ mv
    · rw [if_pos hc] at h2
      exact (mem_filter_ne.mp h2).1
    · rwa [if_neg hc] at h2

theorem cesFold_kill (mv : List Cell) :
    ∀ (l sf : List Cell) (x : Cell), x ∈ mv → x ∈ l →
      x ∉ l.foldl
        (fun sf c => if c ∈ mv then sf.filter (fun d => decide (d ≠ c)) else sf) sf := by
  intro l
  induction l with
  | nil => intro sf x _ h; cases h
  | cons c t ih =>
    intro sf x hmv hl h
    rcases List.mem_cons.mp hl with rfl | hlt
    · have h2 : x ∈ if x ∈ mv then sf.filter (fun d => decide (d ≠ x)) else sf :=
        cesFold_sub mv t _ x h
      rw [if_pos hmv] at h2
      exact (mem_filter_ne.mp h2).2 rfl
    · exact ih _ x hmv hlt h

theorem cesFold_keep (mv : List Cell) :
    ∀ (l sf : List Cell) (x : Cell), x ∉ mv → x ∈ sf →
      x ∈ l.foldl
        (fun sf c => if c ∈ mv then sf.filter (fun d => decide (d ≠ c)) else sf) sf := by
  intro l
  induction l with
  | nil => intro sf x _ h; exact h
  | cons c t ih =>
    intro sf x hmv hsf
    apply ih
    · exact hmv
    · show x ∈ if c ∈ mv then sf.filter (fun d => decide (d ≠ c)) else sf
      by_cases hc : c ∈ mv
      · rw [if_pos hc]
        exact mem_filter_ne.mpr ⟨hsf, fun hxc => hmv (hxc ▸ hc)⟩
      · rwa [if_neg hc]

theorem ces_moves (e : MinesweeperAI) :
    (clean_exceuted_safes e).moves_made = e.moves_made := rfl

theorem ces_mines (e : MinesweeperAI) :
    (clean_exceuted_safes e).mines = e.mines := rfl

theorem ces_knowledge (e : MinesweeperAI) :
    (clean_exceuted_safes e).knowledge = e.knowledge := rfl

theorem ces_height (e : MinesweeperAI) :
    (clean_exceuted_safes e).height = e.height := rfl

theorem ces_width (e : MinesweeperAI) :
    (clean_exceuted_safes e).width = e.width := rfl

theorem ces_safes_mem {e : MinesweeperAI} {x : Cell}
    (h : x ∈ (clean_exceuted_safes e).safes) :
    x ∈ e.safes ∧ x ∉ e.moves_made := by
  unfold clean_exceuted_safes at h
  refine ⟨cesFold_sub _ _ _ _ h, fun hmv => ?_⟩
  exact cesFold_kill e.moves_made e.safes e.safes x hmv (cesFold_sub _ _ _ _ h) h

theorem ces_safes_keep {e : MinesweeperAI} {x : Cell}
    (h1 : x ∈ e.safes) (h2 : x ∉ e.moves_made) :
    x ∈ (clean_exceuted_safes e).safes := by
  unfold clean_exceuted_safes
  exact cesFold_keep e.moves_made e.safes e.safes x h2 h1

theorem ce_moves (e : MinesweeperAI) :
    (clean_empty_sentences e).moves_made = e.moves_made := rfl

theorem ce_safes (e : MinesweeperAI) :
    (clean_empty_sentences e).safes = e.safes := rfl

theorem ce_mines (e : MinesweeperAI) :
    (clean_empty_sentences e).mines = e.mines := rfl

theorem ce_height (e : MinesweeperAI) :
    (clean_empty_sentences e).height = e.height := rfl

theorem ce_width (e : MinesweeperAI) :
    (clean_empty_sentences e).width = e.width := rfl

theorem cid_moves (e : MinesweeperAI) :
    (clean_identical_sentences e).moves_made = e.moves_made := rfl

theorem cid_safes (e : MinesweeperAI) :
    (clean_identical_sentences e).safes = e.safes := rfl

theorem cid_mines (e : MinesweeperAI) :
    (clean_identical_sentences e).mines = e.mines := rfl

theorem cid_height (e : MinesweeperAI) :
    (clean_identical_sentences e).height = e.height := rfl

theorem cid_width (e : MinesweeperAI) :
    (clean_identical_sentences e).width = e.width := rfl

theorem subset_pass_moves (e : MinesweeperAI) :
    (subset_pass e).moves_made = e.moves_made := rfl

theorem subset_pass_safes (e : MinesweeperAI) :
    (subset_pass e).safes = e.safes := rfl

theorem subset_pass_mines (e : MinesweeperAI) :
    (subset_pass e).mines = e.mines := rfl

theorem subset_pass_height (e : MinesweeperAI) :
    (subset_pass e).height = e.height := rfl

theorem subset_pass_width (e : MinesweeperAI) :
    (subset_pass e).width = e.width := rfl

theorem mark_safe_moves (e : MinesweeperAI) (c : Cell) :
    (e.mark_safe c).moves_made = e.moves_made := rfl

theorem mark_safe_safes (e : MinesweeperAI) (c : Cell) :
    (e.mark_safe c).safes = e.safes := rfl

theorem mark_safe_mines (e : MinesweeperAI) (c : Cell) :
    (e.mark_safe c).mines = e.mines := rfl

/-- The full pipeline never removes cells from `moves_made`: it exactly adds
the revealed cell. -/
theorem add_knowledge_moves (e : MinesweeperAI) (cell : Cell) (count : Int) :
    (e.add_knowledge cell count).moves_made = setAdd cell e.moves_made := by
  unfold add_knowledge
  rw [ces_moves, cid_moves, ce_moves, mark_mines_safes_moves, subset_pass_moves,
    cid_moves, ce_moves, mark_mines_safes_moves, add_sentence_moves, mark_safe_moves,
    add_move_moves]

theorem add_knowledge_height (e : MinesweeperAI) (cell : Cell) (count : Int) :
    (e.add_knowledge cell count).height = e.height := by
  unfold add_knowledge
  rw [ces_height, cid_height, ce_height, mark_mines_safes_height, subset_pass_height,
    cid_height, ce_height, mark_mines_safes_height, add_sentence_height]
  rfl

theorem add_knowledge_width (e : MinesweeperAI) (cell : Cell) (count : Int) :
    (e.add_knowledge cell count).width = e.width := by
  unfold add_knowledge
  rw [ces_width, cid_width, ce_width, mark_mines_safes_width, subset_pass_width,
    cid_width, ce_width, mark_mines_safes_width, add_sentence_width]
  rfl

end MinesweeperAI

/-! ### C8: make_safe_move returns a valid cell iff one exists -/

/-- C8: `make_safe_move` returns a cell in `safes`, not in `moves_made` and
not in `mines` whenever one exists, and returns `None` exactly when no such
cell exists (which candidate is returned is unspecified). -/
theorem C8_safe_move_spec (e : MinesweeperAI) :
    (∀ c : Cell, e.make_safe_move = some c →
      c ∈ e.safes ∧ c ∉ e.moves_made ∧ c ∉ e.mines) ∧
    (e.make_safe_move = none ↔ ∀ c ∈ e.safes, c ∈ e.moves_made ∨ c ∈ e.mines) := by
  constructor
  · intro c hc
    have h1 := List.mem_of_find?_eq_some hc
    have h2 := List.find?_some hc
    simp only [decide_eq_true_eq] at h2
    exact ⟨h1, h2⟩
  · unfold MinesweeperAI.make_safe_move
    rw [List.find?_eq_none]
    constructor
    · intro h c hcs
      have h2 := h c hcs
      simp only [decide_eq_true_eq, not_and_or, not_not] at h2
      exact h2
    · intro h c hcs
      simp only [decide_eq_true_eq, not_and_or, not_not]
      exact h c hcs

/-- Witness for C8: on the engine reached by revealing `(0, 0)` with clue 0
on a 1×3 grid, `make_safe_move` returns `(0, 1)` and the theorem certifies it
is a known safe that is neither a made move nor a known mine. -/
theorem C8_witness :
    (runCalls 1 3 [(((0 : Int), (0 : Int)), 0)]).make_safe_move = some (0, 1) ∧
    ((0 : Int), (1 : Int)) ∈ (runCalls 1 3 [(((0 : Int), (0 : Int)), 0)]).safes ∧
    ((0 : Int), (1 : Int)) ∉ (runCalls 1 3 [(((0 : Int), (0 : Int)), 0)]).moves_made ∧
    ((0 : Int), (1 : Int)) ∉ (runCalls 1 3 [(((0 : Int), (0 : Int)), 0)]).mines := by
  have hres : (runCalls 1 3 [(((0 : Int), (0 : Int)), 0)]).make_safe_move = some (0, 1) := by
    decide
  exact ⟨hres, (C8_safe_move_spec (runCalls 1 3 [(((0 : Int), (0 : Int)), 0)])).1 (0, 1) hres⟩

/-! ### C3: add_knowledge performs no precondition check -/

/-- Counterexample for C3: revealing `(0, 0)` a second time — the cell is
already in `moves_made` — does not fail; the call is silently accepted and
returns the engine unchanged (so no `PreconditionError` exists anywhere in
the code path). -/
theorem C3_counterexample :
    ((0 : Int), (0 : Int)) ∈ (runCalls 3 3 [(((0 : Int), (0 : Int)), 1)]).moves_made ∧
    (runCalls 3 3 [(((0 : Int), (0 : Int)), 1)]).add_knowledge ((0 : Int), (0 : Int)) 1 =
      runCalls 3 3 [(((0 : Int), (0 : Int)), 1)] := by
  exact ⟨by decide, by decide⟩

/-- Amended C3: `add_knowledge` validates nothing.  Every call — including
one whose cell is already in `moves_made`, and with an arbitrary (even
negative or oversized) clue count — is accepted and processed normally; the
cell always ends up in `moves_made` and no error is ever raised. -/
theorem C3_amended (e : MinesweeperAI) (cell : Cell) (count : Int) :
    cell ∈ (e.add_knowledge cell count).moves_made := by
  rw [MinesweeperAI.add_knowledge_moves]
  exact mem_setAdd.mpr (Or.inr rfl)

/-! ### C6: after add_knowledge, safes and moves_made are disjoint (not ⊆) -/

/-- Counterexample for C6: after revealing `(0, 0)` with clue 0 on a 1×3
grid, `(0, 0)` is in `moves_made` but not in `safes` — so `moves_made` is
not a subset of `safes`.  (The final cleanup pass removes every made move
from `safes`; the revealed cell is never recorded in `safes` at all.) -/
theorem C6_counterexample :
    ((0 : Int), (0 : Int)) ∈ (runCalls 1 3 [(((0 : Int), (0 : Int)), 0)]).moves_made ∧
    ((0 : Int), (0 : Int)) ∉ (runCalls 1 3 [(((0 : Int), (0 : Int)), 0)]).safes := by
  exact ⟨by decide, by decide⟩

/-- Amended C6: after any `add_knowledge` call returns, `safes` and
`moves_made` are disjoint — the post-processing pass (`clean_exceuted_safes`)
removes every made move from `safes`, the exact opposite of
`moves_made ⊆ safes`. -/
theorem C6_amended (e : MinesweeperAI) (cell : Cell) (count : Int) (x : Cell)
    (hx : x ∈ (e.add_knowledge cell count).safes) :
    x ∉ (e.add_knowledge cell count).moves_made := by
  unfold MinesweeperAI.add_knowledge at hx ⊢
  rw [MinesweeperAI.ces_moves]
  exact (MinesweeperAI.ces_safes_mem hx).2

/-- Witness for C6 at a concrete input: after revealing `(0, 0)` with clue 0
on a 1×3 grid, `(0, 1)` is in `safes`, and the theorem certifies it is not in
`moves_made`. -/
theorem C6_witness :
    ((0 : Int), (1 : Int)) ∈
      ((MinesweeperAI.init 1 3).add_knowledge ((0 : Int), (0 : Int)) 0).safes ∧
    ((0 : Int), (1 : Int)) ∉
      ((MinesweeperAI.init 1 3).add_knowledge ((0 : Int), (0 : Int)) 0).moves_made := by
  refine ⟨by decide, ?_⟩
  exact C6_amended (MinesweeperAI.init 1 3) ((0 : Int), (0 : Int)) 0 ((0 : Int), (1 : Int))
    (by decide)

/-! ### C7: the safe set is not monotone; it only loses cells to moves_made -/

/-- Counterexample for C7: on a 1×3 grid, after revealing `(0, 0)` with clue
0 the safe set is `{(0, 1)}`; revealing `(0, 1)` with clue 0 then removes
`(0, 1)` from `safes` (it became a made move), so the safe set before the
call is not a subset of the safe set after it. -/
theorem C7_counterexample :
    ((0 : Int), (1 : Int)) ∈ (runCalls 1 3 [(((0 : Int), (0 : Int)), 0)]).safes ∧
    ((0 : Int), (1 : Int)) ∉
      ((runCalls 1 3 [(((0 : Int), (0 : Int)), 0)]).add_knowledge ((0 : Int), (1 : Int)) 0).safes := by
  exact ⟨by decide, by decide⟩

/-- Amended C7: the safe set grows monotonically except for the final
bookkeeping cleanup: a cell in `safes` before an `add_knowledge` call is,
after the call, either still in `safes` or in `moves_made` (it is removed
from `safes` only once recorded as an executed move). -/
theorem C7_amended (e : MinesweeperAI) (cell : Cell) (count : Int) (x : Cell)
    (hx : x ∈ e.safes) :
    x ∈ (e.add_knowledge cell count).safes ∨
    x ∈ (e.add_knowledge cell count).moves_made := by
  unfold MinesweeperAI.add_knowledge
  have h1 : x ∈ ((MinesweeperAI.add_sentence ((MinesweeperAI.add_move e cell).mark_safe cell)
      cell count).mark_mines_safes.clean_empty_sentences.clean_identical_sentences
      ).subset_pass.mark_mines_safes.clean_empty_sentences.clean_identical_sentences.safes := by
    rw [MinesweeperAI.cid_safes, MinesweeperAI.ce_safes]
    apply MinesweeperAI.mark_mines_safes_safes_sub
    rw [MinesweeperAI.subset_pass_safes, MinesweeperAI.cid_safes, MinesweeperAI.ce_safes]
    apply MinesweeperAI.mark_mines_safes_safes_sub
    rw [MinesweeperAI.add_sentence_safes, MinesweeperAI.mark_safe_safes]
    exact hx
  by_cases hm : x ∈ ((MinesweeperAI.add_sentence ((MinesweeperAI.add_move e cell).mark_safe cell)
      cell count).mark_mines_safes.clean_empty_sentences.clean_identical_sentences
      ).subset_pass.mark_mines_safes.clean_empty_sentences.clean_identical_sentences.moves_made
  · right
    rw [MinesweeperAI.ces_moves]
    exact hm
  · left
    exact MinesweeperAI.ces_safes_keep h1 hm

/-- Witness for C7 at a concrete input: `(0, 1)` is safe after revealing
`(0, 0)` on a 1×3 grid, and after further revealing `(0, 2)` it is (by the
theorem) still in `safes` or in `moves_made`. -/
theorem C7_witness :
    ((0 : Int), (1 : Int)) ∈ (runCalls 1 3 [(((0 : Int), (0 : Int)), 0)]).safes ∧
    (((0 : Int), (1 : Int)) ∈
        ((runCalls 1 3 [(((0 : Int), (0 : Int)), 0)]).add_knowledge ((0 : Int), (2 : Int)) 0).safes ∨
      ((0 : Int), (1 : Int)) ∈
        ((runCalls 1 3 [(((0 : Int), (0 : Int)), 0)]).add_knowledge ((0 : Int), (2 : Int)) 0).moves_made) := by
  refine ⟨by decide, ?_⟩
  exact C7_amended (runCalls 1 3 [(((0 : Int), (0 : Int)), 0)]) ((0 : Int), (2 : Int)) 0
    ((0 : Int), (1 : Int)) (by decide)

/-! ### C2: the derived count is the absolute difference, not the difference -/

/-- Counterexample for C2: run `add_knowledge (0,0) 1`, `add_knowledge (2,2) 0`,
`add_knowledge (2,0) 9` on a fresh 3×3 engine.  During the third call the
knowledge base holds `A = {(1,0)} : 9` and `B = {(0,1),(1,0)} : 1` with
`A.cells ⊆ B.cells`, and subset inference derives `{(0,1)}` with count
`abs(1 - 9) = 8` — not `B.count - A.count = -8` as the claim states. -/
theorem C2_counterexample :
    ({ cells := [((0 : Int), (1 : Int))], count := 8 } : Sentence) ∈
      (runCalls 3 3 [(((0 : Int), (0 : Int)), 1), (((2 : Int), (2 : Int)), 0),
        (((2 : Int), (0 : Int)), 9)]).knowledge ∧
    ({ cells := [((0 : Int), (1 : Int))], count := -8 } : Sentence) ∉
      (runCalls 3 3 [(((0 : Int), (0 : Int)), 1), (((2 : Int), (2 : Int)), 0),
        (((2 : Int), (0 : Int)), 9)]).knowledge := by
  exact ⟨by decide, by decide⟩

/-! ### The structural invariant behind C1

`Inv1` states that the known-safe and known-mine sets are disjoint and that
no sentence in the knowledge base mentions a cell that is already a made
move, a known safe or a known mine.  Every stage of `add_knowledge`
preserves it. -/

open MinesweeperAI

structure Inv1 (e : MinesweeperAI) : Prop where
  disj : ∀ c ∈ e.safes, c ∉ e.mines
  clean : ∀ s ∈ e.knowledge, ∀ c ∈ s.cells,
    c ∉ e.moves_made ∧ c ∉ e.safes ∧ c ∉ e.mines

theorem inv1_init (h w : Int) : Inv1 (MinesweeperAI.init h w) := by
  constructor
  · intro c hc
    cases hc
  · intro s hs
    cases hs

theorem inv1_reveal {e : MinesweeperAI} (cell : Cell) (hinv : Inv1 e) :
    Inv1 ((MinesweeperAI.add_move e cell).mark_safe cell) := by
  constructor
  · exact hinv.disj
  · intro s hs c hc
    obtain ⟨t, ht, rfl⟩ := List.mem_map.mp hs
    have h1 := Sentence.mark_safe_cells_sub hc
    have h2 : c ≠ cell := fun hcc => Sentence.mark_safe_not_mem t cell (hcc ▸ hc)
    obtain ⟨hm, hsafe, hmine⟩ := hinv.clean t ht c h1
    refine ⟨fun hmem => ?_, hsafe, hmine⟩
    rcases mem_setAdd.mp hmem with h | h
    · exact hm h
    · exact h2 h

/-- Membership in the cell list built from the neighbors in `add_sentence`:
every cell comes from the accumulator or is a neighbor that is not a known
mine, known safe or made move. -/
theorem buildCells_mem (mines safes moves : List Cell) :
    ∀ (l : List Cell) (acc : List Cell × Int) (x : Cell),
      x ∈ (l.foldl (fun (acc : List Cell × Int) c1 =>
          if c1 ∈ mines then (acc.1, acc.2 - 1)
          else if c1 ∈ safes ∨ c1 ∈ moves then acc
          else (acc.1 ++ [c1], acc.2)) acc).1 →
      x ∈ acc.1 ∨ (x ∈ l ∧ x ∉ mines ∧ ¬(x ∈ safes ∨ x ∈ moves)) := by
  intro l
  induction l with
  | nil => intro acc x h; exact Or.inl h
  | cons c1 t ih =>
    intro acc x h
    rw [List.foldl_cons] at h
    by_cases h1 : c1 ∈ mines
    · rw [if_pos h1] at h
      rcases ih _ x h with h2 | ⟨h2, h3, h4⟩
      · exact Or.inl h2
      · exact Or.inr ⟨List.mem_cons_of_mem _ h2, h3, h4⟩
    · rw [if_neg h1] at h
      by_cases h2 : c1 ∈ safes ∨ c1 ∈ moves
      · rw [if_pos h2] at h
        rcases ih _ x h with h3 | ⟨h3, h4, h5⟩
        · exact Or.inl h3
        · exact Or.inr ⟨List.mem_cons_of_mem _ h3, h4, h5⟩
      · rw [if_neg h2] at h
        rcases ih _ x h with h3 | ⟨h3, h4, h5⟩
        · rcases List.mem_append.mp h3 with h4 | h4
          · exact Or.inl h4
          · have : x = c1 := by simpa using h4
            subst this
            exact Or.inr ⟨List.mem_cons_self _ _, h1, h2⟩
        · exact Or.inr ⟨List.mem_cons_of_mem _ h3, h4, h5⟩

theorem inv1_add_sentence {e : MinesweeperAI} (cell : Cell) (count : Int)
    (hinv : Inv1 e) : Inv1 (MinesweeperAI.add_sentence e cell count) := by
  simp only [MinesweeperAI.add_sentence]
  split
  · split
    · exact hinv
    · constructor
      · exact hinv.disj
      · intro s hs c hc
        rcases List.mem_append.mp hs with h | h
        · exact hinv.clean s h c hc
        · have hs2 := List.mem_singleton.mp h
          subst hs2
          rcases buildCells_mem e.mines e.safes e.moves_made _ _ c hc with h2 | ⟨_, h3, h4⟩
          · cases h2
          · push_neg at h4
            exact ⟨h4.2, h4.1, h3⟩
  · exact hinv

theorem inv1_applyMines :
    ∀ (ms : List Cell) (e : MinesweeperAI), Inv1 e → (∀ c ∈ ms, c ∉ e.safes) →
      Inv1 (MinesweeperAI.applyMines e ms) := by
  intro ms
  induction ms with
  | nil => intro e hinv _; exact hinv
  | cons c t ih =>
    intro e hinv hms
    simp only [MinesweeperAI.applyMines]
    apply ih
    · constructor
      · intro x hx hmem
        rcases mem_setAdd.mp hmem with h | rfl
        · exact hinv.disj x hx h
        · exact hms x (List.mem_cons_self _ _) hx
      · intro s hs y hy
        obtain ⟨u, hu, rfl⟩ := List.mem_map.mp hs
        have h1 := Sentence.mark_mine_cells_sub hy
        have h2 : y ≠ c := fun hyc => Sentence.mark_mine_not_mem u c (hyc ▸ hy)
        obtain ⟨hm, hsafe, hmine⟩ := hinv.clean u hu y h1
        refine ⟨hm, hsafe, fun hmem => ?_⟩
        rcases mem_setAdd.mp hmem with h | h
        · exact hmine h
        · exact h2 h
    · intro x hx
      exact hms x (List.mem_cons_of_mem _ hx)

theorem inv1_applySafes :
    ∀ (ss : List Cell) (e : MinesweeperAI), Inv1 e → (∀ c ∈ ss, c ∉ e.mines) →
      Inv1 (MinesweeperAI.applySafes e ss) := by
  intro ss
  induction ss with
  | nil => intro e hinv _; exact hinv
  | cons c t ih =>
    intro e hinv hss
    simp only [MinesweeperAI.applySafes]
    by_cases hc : c ∈ e.moves_made
    · rw [if_pos hc]
      exact ih e hinv (fun x hx => hss x (List.mem_cons_of_mem _ hx))
    · rw [if_neg hc]
      apply ih
      · constructor
        · intro x hx hmem
          rcases mem_setAdd.mp hx with h | rfl
          · exact hinv.disj x h hmem
          · exact hss x (List.mem_cons_self _ _) hmem
        · intro s hs y hy
          obtain ⟨u, hu, rfl⟩ := List.mem_map.mp hs
          have h1 := Sentence.mark_safe_cells_sub hy
          have h2 : y ≠ c := fun hyc => Sentence.mark_safe_not_mem u c (hyc ▸ hy)
          obtain ⟨hm, hsafe, hmine⟩ := hinv.clean u hu y h1
          refine ⟨hm, fun hmem => ?_, hmine⟩
          rcases mem_setAdd.mp hmem with h | h
          · exact hsafe h
          · exact h2 h
      · intro x hx
        exact hss x (List.mem_cons_of_mem _ hx)

theorem inv1_mmsStep (e : MinesweeperAI) (i : Nat) (hinv : Inv1 e) :
    Inv1 (MinesweeperAI.mmsStep e i) := by
  unfold MinesweeperAI.mmsStep
  cases hget : e.knowledge.get? i with
  | none => exact hinv
  | some s =>
    have hsmem : s ∈ e.knowledge := List.get?_mem hget
    have h1 : Inv1 (MinesweeperAI.applyMines e s.known_mines) := by
      apply inv1_applyMines _ _ hinv
      intro c hc
      exact (hinv.clean s hsmem c (Sentence.known_mines_sub hc)).2.1
    apply inv1_applySafes _ _ h1
    intro c hc
    rw [MinesweeperAI.applyMines_mines_mem]
    push_neg
    constructor
    · exact (hinv.clean s hsmem c (Sentence.known_safes_sub hc)).2.2
    · intro hcm
      rcases Sentence.known_disjoint s with h | h
      · rw [h] at hcm
        cases hcm
      · rw [h] at hc
        cases hc

theorem inv1_mark_mines_safes {e : MinesweeperAI} (hinv : Inv1 e) :
    Inv1 e.mark_mines_safes := by
  unfold MinesweeperAI.mark_mines_safes
  exact foldl_inv (fun a i ha => inv1_mmsStep a i ha) _ e hinv

theorem removeFirst_mem : ∀ {y : Sentence} {l : List Sentence} {x : Sentence},
    x ∈ removeFirst y l → x ∈ l := by
  intro y l
  induction l with
  | nil => intro x h; cases h
  | cons s t ih =>
    intro x h
    unfold removeFirst at h
    split at h
    · exact List.mem_cons_of_mem _ h
    · rcases List.mem_cons.mp h with rfl | h2
      · exact List.mem_cons_self _ _
      · exact List.mem_cons_of_mem _ (ih h2)

theorem ce_knowledge_mem {e : MinesweeperAI} {s : Sentence}
    (h : s ∈ (MinesweeperAI.clean_empty_sentences e).knowledge) :
    s ∈ e.knowledge := by
  unfold MinesweeperAI.clean_empty_sentences at h
  refine foldl_inv (P := fun kb => ∀ x ∈ kb, x ∈ e.knowledge)
    (fun kb t hkb x hx => ?_) e.knowledge e.knowledge (fun x hx => hx) s h
  revert hx
  split
  · exact fun hx => hkb x (removeFirst_mem hx)
  · exact fun hx => hkb x hx

theorem cleanIdGo_mem : ∀ (l kb : List Sentence) {x : Sentence},
    x ∈ cleanIdGo l kb → x ∈ kb := by
  intro l
  induction l with
  | nil => intro kb x h; exact h
  | cons s t ih =>
    intro kb x h
    have h2 := ih _ h
    refine foldl_inv (P := fun kb2 => ∀ y ∈ kb2, y ∈ kb)
      (fun kb2 u hkb2 y hy => ?_) t kb (fun y hy => hy) x h2
    revert hy
    split
    · exact fun hy => hkb2 y (removeFirst_mem hy)
    · exact fun hy => hkb2 y hy

theorem cid_knowledge_mem {e : MinesweeperAI} {s : Sentence}
    (h : s ∈ (MinesweeperAI.clean_identical_sentences e).knowledge) :
    s ∈ e.knowledge :=
  cleanIdGo_mem e.knowledge e.knowledge h

theorem inv1_clean_empty {e : MinesweeperAI} (hinv : Inv1 e) :
    Inv1 e.clean_empty_sentences := by
  constructor
  · exact hinv.disj
  · intro s hs
    exact hinv.clean s (ce_knowledge_mem hs)

theorem inv1_clean_identical {e : MinesweeperAI} (hinv : Inv1 e) :
    Inv1 e.clean_identical_sentences := by
  constructor
  · exact hinv.disj
  · intro s hs
    exact hinv.clean s (cid_knowledge_mem hs)

/-! Characterisation of the sentences produced by the subset-inference scan. -/

theorem subStep_mem {kb : List Sentence} {mv sf mn : List Cell}
    {st : List Sentence × Int} {s s1 x : Sentence}
    (hx : x ∈ (subStep kb mv sf mn st s s1).1) :
    x ∈ st.1 ∨ (s.cells.all (fun c => decide (c ∈ s1.cells)) = true ∧
      x = subCandidate mv sf mn s s1) := by
  simp only [subStep] at hx
  split at hx
  · split at hx
    · split at hx
      · exact Or.inl hx
      · rcases List.mem_append.mp hx with h | h
        · exact Or.inl h
        · have : x = subCandidate mv sf mn s s1 := by simpa using h
          exact Or.inr ⟨by assumption, this⟩
    · exact Or.inl hx
  · exact Or.inl hx

theorem subInner_mem {kb : List Sentence} {mv sf mn : List Cell} {s : Sentence} :
    ∀ (l : List Sentence) (st : List Sentence × Int) (x : Sentence),
      x ∈ (l.foldl (fun st2 s1 => subStep kb mv sf mn st2 s s1) st).1 →
      x ∈ st.1 ∨ ∃ s1 ∈ l, s.cells.all (fun c => decide (c ∈ s1.cells)) = true ∧
        x = subCandidate mv sf mn s s1 := by
  intro l
  induction l with
  | nil => intro st x h; exact Or.inl h
  | cons s1 t ih =>
    intro st x h
    rw [List.foldl_cons] at h
    rcases ih _ x h with h2 | ⟨u, hu, h3⟩
    · rcases subStep_mem h2 with h3 | ⟨h3, h4⟩
      · exact Or.inl h3
      · exact Or.inr ⟨s1, List.mem_cons_self _ _, h3, h4⟩
    · exact Or.inr ⟨u, List.mem_cons_of_mem _ hu, h3⟩

theorem subInfer_mem {kb : List Sentence} {mv sf mn : List Cell} {x : Sentence}
    (h : x ∈ subInfer kb mv sf mn) :
    ∃ s ∈ kb, ∃ s1 ∈ kb, s.cells.all (fun c => decide (c ∈ s1.cells)) = true ∧
      x = subCandidate mv sf mn s s1 := by
  unfold subInfer at h
  have main : ∀ (L : List Sentence) (st : List Sentence × Int),
      x ∈ (L.foldl (fun st s => kb.foldl (fun st2 s1 => subStep kb mv sf mn st2 s s1) st) st).1 →
      x ∈ st.1 ∨ ∃ s ∈ L, ∃ s1 ∈ kb, s.cells.all (fun c => decide (c ∈ s1.cells)) = true ∧
        x = subCandidate mv sf mn s s1 := by
    intro L
    induction L with
    | nil => intro st h2; exact Or.inl h2
    | cons s t ih =>
      intro st h2
      rw [List.foldl_cons] at h2
      rcases ih _ h2 with h3 | ⟨u, hu, h4⟩
      · rcases subInner_mem kb _ x h3 with h4 | ⟨s1, hs1, h5⟩
        · exact Or.inl h4
        · exact Or.inr ⟨s, List.mem_cons_self _ _, s1, hs1, h5⟩
      · exact Or.inr ⟨u, List.mem_cons_of_mem _ hu, h4⟩
  rcases main kb ([], -1) h with h2 | h2
  · cases h2
  · exact h2

/-- Cells of a subset-inference candidate are never already-known cells. -/
theorem subCandidate_cells_clean {mv sf mn : List Cell} {s s1 : Sentence} {c : Cell}
    (h : c ∈ (subCandidate mv sf mn s s1).cells) :
    c ∉ mv ∧ c ∉ sf ∧ c ∉ mn := by
  unfold subCandidate at h
  have h2 := (List.mem_filter.mp h).2
  simp only [decide_eq_true_eq] at h2
  push_neg at h2
  exact h2

theorem inv1_subset_pass {e : MinesweeperAI} (hinv : Inv1 e) :
    Inv1 e.subset_pass := by
  constructor
  · exact hinv.disj
  · intro s hs c hc
    rcases List.mem_append.mp hs with h | h
    · exact hinv.clean s h c hc
    · obtain ⟨_, _, _, _, _, rfl⟩ := subInfer_mem h
      exact subCandidate_cells_clean hc

theorem inv1_ces {e : MinesweeperAI} (hinv : Inv1 e) :
    Inv1 e.clean_exceuted_safes := by
  constructor
  · intro c hc
    rw [MinesweeperAI.ces_mines]
    exact hinv.disj c (MinesweeperAI.ces_safes_mem hc).1
  · intro s hs c hc
    rw [MinesweeperAI.ces_knowledge] at hs
    obtain ⟨hm, hsafe, hmine⟩ := hinv.clean s hs c hc
    exact ⟨hm, fun h2 => hsafe (MinesweeperAI.ces_safes_mem h2).1, hmine⟩

theorem inv1_add_knowledge {e : MinesweeperAI} (cell : Cell) (count : Int)
    (hinv : Inv1 e) : Inv1 (e.add_knowledge cell count) := by
  unfold MinesweeperAI.add_knowledge
  apply inv1_ces
  apply inv1_clean_identical
  apply inv1_clean_empty
  apply inv1_mark_mines_safes
  apply inv1_subset_pass
  apply inv1_clean_identical
  apply inv1_clean_empty
  apply inv1_mark_mines_safes
  apply inv1_add_sentence
  apply inv1_reveal
  exact hinv

theorem inv1_runCalls (h w : Int) (calls : List (Cell × Int)) :
    Inv1 (runCalls h w calls) := by
  have main : ∀ (cs : List (Cell × Int)) (e : MinesweeperAI), Inv1 e →
      Inv1 (cs.foldl (fun e p => e.add_knowledge p.1 p.2) e) := by
    intro cs
    induction cs with
    | nil => intro e he; exact he
    | cons p t ih =>
      intro e he
      rw [List.foldl_cons]
      exact ih _ (inv1_add_knowledge p.1 p.2 he)
  exact main calls _ (inv1_init h w)

/-! ### C1: known safes and known mines are always disjoint -/

/-- C1: for every grid size and every sequence of `add_knowledge` calls
(arbitrary cells and arbitrary integer clue counts — in particular all
in-grid cells and genuine clues), after every call the set of known safes
and the set of known mines are disjoint. -/
theorem C1_safes_mines_disjoint (h w : Int) (calls : List (Cell × Int)) (c : Cell)
    (hc : c ∈ (runCalls h w calls).safes) :
    c ∉ (runCalls h w calls).mines :=
  (inv1_runCalls h w calls).disj c hc

/-- Witness for C1 at a concrete input: after revealing `(0, 0)` with clue 0
on a 1×3 grid, `(0, 1)` is a known safe, and by the theorem it is not a
known mine. -/
theorem C1_witness :
    ((0 : Int), (1 : Int)) ∈ (runCalls 1 3 [(((0 : Int), (0 : Int)), 0)]).safes ∧
    ((0 : Int), (1 : Int)) ∉ (runCalls 1 3 [(((0 : Int), (0 : Int)), 0)]).mines := by
  refine ⟨by decide, ?_⟩
  exact C1_safes_mines_disjoint 1 3 [(((0 : Int), (0 : Int)), 0)] ((0 : Int), (1 : Int))
    (by decide)

/-! ### C2 (amended): the subset-inference step queues exactly the candidate
with the filtered difference cells and the absolute count difference -/

theorem pyAbs_nonneg (x : Int) : 0 ≤ pyAbs x := by
  unfold pyAbs
  split <;> omega

theorem subStep_grow {kb : List Sentence} {mv sf mn : List Cell}
    {st : List Sentence × Int} {s s1 x : Sentence} (hx : x ∈ st.1) :
    x ∈ (subStep kb mv sf mn st s s1).1 := by
  simp only [subStep]
  split
  · split
    · split
      · exact hx
      · exact List.mem_append_left _ hx
    · exact hx
  · exact hx

theorem subInner_grow {kb : List Sentence} {mv sf mn : List Cell} {s : Sentence} :
    ∀ (l : List Sentence) (st : List Sentence × Int) (x : Sentence), x ∈ st.1 →
      x ∈ (l.foldl (fun st2 s1 => subStep kb mv sf mn st2 s s1) st).1 := by
  intro l
  induction l with
  | nil => intro st x hx; exact hx
  | cons u t ih =>
    intro st x hx
    rw [List.foldl_cons]
    exact ih _ x (subStep_grow hx)

theorem subOuter_grow {kb : List Sentence} {mv sf mn : List Cell} :
    ∀ (L : List Sentence) (st : List Sentence × Int) (x : Sentence), x ∈ st.1 →
      x ∈ (L.foldl (fun st s =>
        kb.foldl (fun st2 s1 => subStep kb mv sf mn st2 s s1) st) st).1 := by
  intro L
  induction L with
  | nil => intro st x hx; exact hx
  | cons u t ih =>
    intro st x hx
    rw [List.foldl_cons]
    exact ih _ x (subInner_grow kb _ x hx)

theorem subInner_gen {kb : List Sentence} {mv sf mn : List Cell} {s s1 : Sentence}
    (hsub : s.cells.all (fun c => decide (c ∈ s1.cells)) = true)
    (hne : (subCandidate mv sf mn s s1).cells ≠ [])
    (hnew : inKB (subCandidate mv sf mn s s1) kb = false) :
    ∀ (l : List Sentence) (st : List Sentence × Int), s1 ∈ l →
      subCandidate mv sf mn s s1 ∈
        (l.foldl (fun st2 u => subStep kb mv sf mn st2 s u) st).1 := by
  intro l
  induction l with
  | nil => intro st h; cases h
  | cons u t ih =>
    intro st hmem
    rw [List.foldl_cons]
    rcases List.mem_cons.mp hmem with rfl | h2
    · apply subInner_grow
      simp only [subStep, if_pos hsub]
      have hcount : (subCandidate mv sf mn s s1).count ≠ -1 := by
        show pyAbs (s1.count - s.count) ≠ -1
        have := pyAbs_nonneg (s1.count - s.count)
        omega
      rw [if_pos ⟨hne, hcount⟩, if_neg (by rw [hnew]; exact Bool.false_ne_true)]
      exact List.mem_append_right _ (List.mem_singleton.mpr rfl)
    · exact ih _ h2

/-- Amended C2: for every ordered pair `(A, B)` of sentences in the snapshot
of the knowledge base with `A.cells ⊆ B.cells`, the candidate derived by the
subset-inference scan is `subCandidate`: its cells are `B.cells − A.cells`
with cells already in `moves_made`, `safes` or `mines` filtered out, and its
count is `abs(B.count − A.count)` — the absolute value, not the plain
difference; if the filtered difference is non-empty and the candidate is not
already in the knowledge base, it is queued in `sub_sentences`. -/
theorem C2_amended (kb : List Sentence) (mv sf mn : List Cell) (s s1 : Sentence)
    (hs : s ∈ kb) (hs1 : s1 ∈ kb)
    (hsub : s.cells.all (fun c => decide (c ∈ s1.cells)) = true)
    (hne : (subCandidate mv sf mn s s1).cells ≠ [])
    (hnew : inKB (subCandidate mv sf mn s s1) kb = false) :
    subCandidate mv sf mn s s1 ∈ subInfer kb mv sf mn := by
  unfold subInfer
  have main : ∀ (L : List Sentence) (st : List Sentence × Int), s ∈ L →
      subCandidate mv sf mn s s1 ∈
        (L.foldl (fun st u =>
          kb.foldl (fun st2 u1 => subStep kb mv sf mn st2 u u1) st) st).1 := by
    intro L
    induction L with
    | nil => intro st h; cases h
    | cons u t ih =>
      intro st hmem
      rw [List.foldl_cons]
      rcases List.mem_cons.mp hmem with rfl | h2
      · apply subOuter_grow
        exact subInner_gen hsub hne hnew kb st hs1
      · exact ih _ h2
  exact main kb ([], -1) hs

/-- Witness for C2 (amended) at the spec's own instance: with
`A = {(0,0),(0,1)} : 1` and `B = {(0,0),(0,1),(0,2)} : 1` in the knowledge
base and nothing yet known, the derived candidate is `{(0,2)} : 0` and it is
queued by the subset-inference scan. -/
theorem C2_amended_witness :
    subCandidate [] [] [] { cells := [((0 : Int), (0 : Int)), ((0 : Int), (1 : Int))], count := 1 }
        { cells := [((0 : Int), (0 : Int)), ((0 : Int), (1 : Int)), ((0 : Int), (2 : Int))], count := 1 } =
      { cells := [((0 : Int), (2 : Int))], count := 0 } ∧
    subCandidate [] [] [] { cells := [((0 : Int), (0 : Int)), ((0 : Int), (1 : Int))], count := 1 }
        { cells := [((0 : Int), (0 : Int)), ((0 : Int), (1 : Int)), ((0 : Int), (2 : Int))], count := 1 } ∈
      subInfer [{ cells := [((0 : Int), (0 : Int)), ((0 : Int), (1 : Int))], count := 1 },
        { cells := [((0 : Int), (0 : Int)), ((0 : Int), (1 : Int)), ((0 : Int), (2 : Int))], count := 1 }]
        [] [] [] := by
  refine ⟨by decide, ?_⟩
  exact C2_amended _ [] [] [] _ _ (by decide) (by decide) (by decide) (by decide) (by decide)

/-! ### Board-consistent soundness (for C5)

A mine layout is a predicate `M : Cell → Bool`.  `countMines M l` is the
number of cells of `l` that carry a mine.  `SoundInv M e` states that the
engine's knowledge is faithful to the layout `M`; it is preserved by
`add_knowledge` whenever the caller reports truthful clues. -/

def countMines (M : Cell → Bool) (l : List Cell) : Int := (l.countP M : Int)

theorem countMines_nonneg (M : Cell → Bool) (l : List Cell) : 0 ≤ countMines M l :=
  Int.natCast_nonneg _

theorem countMines_le_length (M : Cell → Bool) (l : List Cell) :
    countMines M l ≤ (l.length : Int) := by
  unfold countMines
  exact_mod_cast List.countP_le_length M

theorem filter_ne_of_not_mem {c : Cell} {l : List Cell} (hc : c ∉ l) :
    l.filter (fun d => decide (d ≠ c)) = l := by
  apply List.filter_eq_self.mpr
  intro a ha
  simp only [decide_eq_true_eq]
  rintro rfl
  exact hc ha

theorem countP_filter_ne (p : Cell → Bool) (c : Cell) :
    ∀ (l : List Cell), l.Nodup → c ∈ l →
      l.countP p = (l.filter (fun d => decide (d ≠ c))).countP p +
        (if p c = true then 1 else 0) := by
  intro l
  induction l with
  | nil => intro _ h; cases h
  | cons a t ih =>
    intro hnd hmem
    rw [List.nodup_cons] at hnd
    obtain ⟨ha, hndt⟩ := hnd
    rcases List.mem_cons.mp hmem with rfl | hct
    · rw [List.countP_cons, List.filter_cons]
      have hda : (decide (c ≠ c)) = false := by simp
      rw [hda]
      simp only [Bool.false_eq_true, if_false]
      rw [filter_ne_of_not_mem ha]
    · have hac : a ≠ c := fun h => ha (h ▸ hct)
      rw [List.countP_cons, List.filter_cons]
      have hda : (decide (a ≠ c)) = true := by simp [hac]
      rw [hda]
      simp only [if_true]
      rw [List.countP_cons, ih hndt hct]
      omega

/-- Effect of `Sentence.mark_mine` on a consistent sentence: when the marked
cell is a mine of the layout, the count stays the number of mines among the
cells. -/
theorem Sentence.mark_mine_sound {M : Cell → Bool} {s : Sentence} {c : Cell}
    (hnd : s.cells.Nodup) (hc : s.count = countMines M s.cells) (hM : M c = true) :
    (s.mark_mine c).count = countMines M (s.mark_mine c).cells ∧
      (s.mark_mine c).cells.Nodup := by
  unfold Sentence.mark_mine
  split
  · constructor
    · show s.count - 1 = countMines M (s.cells.filter (fun d => decide (d ≠ c)))
      have h2 := countP_filter_ne M c s.cells hnd (by assumption)
      rw [hM] at h2
      simp only [if_true] at h2
      unfold countMines at hc ⊢
      omega
    · exact hnd.filter _
  · exact ⟨hc, hnd⟩

/-- Effect of `Sentence.mark_safe` on a consistent sentence: removing a
non-mine cell keeps the count equal to the number of mines among the cells. -/
theorem Sentence.mark_safe_sound {M : Cell → Bool} {s : Sentence} {c : Cell}
    (hnd : s.cells.Nodup) (hc : s.count = countMines M s.cells) (hM : M c = false) :
    (s.mark_safe c).count = countMines M (s.mark_safe c).cells ∧
      (s.mark_safe c).cells.Nodup := by
  unfold Sentence.mark_safe
  refine ⟨?_, hnd.filter _⟩
  show s.count = countMines M (s.cells.filter (fun d => decide (d ≠ c)))
  by_cases hmem : c ∈ s.cells
  · have h2 := countP_filter_ne M c s.cells hnd hmem
    rw [hM] at h2
    simp only [Bool.false_eq_true, if_false] at h2
    unfold countMines at hc ⊢
    omega
  · rw [filter_ne_of_not_mem hmem]
    exact hc

/-- If a consistent sentence resolves mines (`len(cells) == count`), every
resolved cell really is a mine of the layout. -/
theorem known_mines_true {M : Cell → Bool} {s : Sentence}
    (hc : s.count = countMines M s.cells) :
    ∀ c ∈ s.known_mines, M c = true := by
  intro c hmem
  unfold Sentence.known_mines at hmem
  split at hmem
  · rename_i hlen
    have h2 : s.cells.countP M = s.cells.length := by
      unfold countMines at hc
      omega
    exact List.countP_eq_length.mp h2 c hmem
  · cases hmem

/-- If a consistent sentence resolves safes (`count == 0`), every resolved
cell really is safe in the layout. -/
theorem known_safes_false {M : Cell → Bool} {s : Sentence}
    (hc : s.count = countMines M s.cells) :
    ∀ c ∈ s.known_safes, M c = false := by
  intro c hmem
  unfold Sentence.known_safes at hmem
  split at hmem
  · rename_i h0
    have h2 : s.cells.countP M = 0 := by
      unfold countMines at hc
      omega
    have := List.countP_eq_zero.mp h2 c hmem
    exact Bool.not_eq_true _ ▸ (by simpa using this)
  · cases hmem

theorem intRange_nodup (a b : Int) : (intRange a b).Nodup := by
  unfold intRange
  apply List.Nodup.map
  · intro x y h
    have h2 : a + Int.ofNat x = a + Int.ofNat y := h
    simp only [Int.ofNat_eq_natCast] at h2
    omega
  · exact List.nodup_range _

/-- Membership in the inner `filterMap` of `neighbors` fixes the row. -/
theorem neighbors_inner_mem {e : MinesweeperAI} {cell : Cell} {i : Int} {x : Cell}
    (hx : x ∈ (intRange (cell.2 - 1) (cell.2 + 2)).filterMap (fun j =>
      if (i, j) = cell then none
      else if 0 ≤ i ∧ i < e.height ∧ 0 ≤ j ∧ j < e.width then some (i, j)
      else none)) :
    ∃ j, x = (i, j) := by
  rw [List.mem_filterMap] at hx
  obtain ⟨j, _, hj⟩ := hx
  split at hj
  · cases hj
  · split at hj
    · exact ⟨j, (Option.some.injEq _ _ ▸ hj).symm⟩
    · cases hj

/-- The neighbor list contains no duplicates. -/
theorem neighbors_nodup (e : MinesweeperAI) (cell : Cell) :
    (e.neighbors cell).Nodup := by
  unfold MinesweeperAI.neighbors
  rw [List.nodup_flatMap]
  constructor
  · intro i _
    apply List.Nodup.filterMap ?_ (intRange_nodup _ _)
    intro j j' x hj hj'
    have h1 : x = (i, j) := by
      revert hj
      split
      · intro h; cases h
      · split
        · intro h; exact (Option.mem_some_iff.mp h).symm
        · intro h; cases h
    have h2 : x = (i, j') := by
      revert hj'
      split
      · intro h; cases h
      · split
        · intro h; exact (Option.mem_some_iff.mp h).symm
        · intro h; cases h
    rw [h1] at h2
    exact (Prod.mk.injEq _ _ _ _ ▸ h2).2
  · apply List.Pairwise.imp ?_ (intRange_nodup _ _)
    intro i i' hne x hx hx'
    obtain ⟨j, rfl⟩ := neighbors_inner_mem hx
    obtain ⟨j', hj'⟩ := neighbors_inner_mem hx'
    exact hne ((Prod.mk.injEq _ _ _ _ ▸ hj').1)

/-- `SoundInv M e`: the engine's knowledge is faithful to the mine layout
`M` — every known mine is a mine, every known safe and every made move is
not, no sentence mentions an already-known cell, sentence cell lists have no
duplicates, and every sentence's count is exactly the number of its cells
that are mines of `M`. -/
structure SoundInv (M : Cell → Bool) (e : MinesweeperAI) : Prop where
  mines_true : ∀ c ∈ e.mines, M c = true
  safes_false : ∀ c ∈ e.safes, M c = false
  moves_false : ∀ c ∈ e.moves_made, M c = false
  clean : ∀ s ∈ e.knowledge, ∀ c ∈ s.cells,
    c ∉ e.moves_made ∧ c ∉ e.safes ∧ c ∉ e.mines
  nodup : ∀ s ∈ e.knowledge, s.cells.Nodup
  kcount : ∀ s ∈ e.knowledge, s.count = countMines M s.cells

theorem sound_init (M : Cell → Bool) (h w : Int) :
    SoundInv M (MinesweeperAI.init h w) := by
  constructor <;> intro c hc <;> cases hc

theorem Sentence.mark_mine_nodup {s : Sentence} (c : Cell)
    (hnd : s.cells.Nodup) : (s.mark_mine c).cells.Nodup := by
  unfold Sentence.mark_mine
  split
  · exact hnd.filter _
  · exact hnd

theorem sound_reveal {M : Cell → Bool} {e : MinesweeperAI} (cell : Cell)
    (hM : M cell = false) (hs : SoundInv M e) :
    SoundInv M ((MinesweeperAI.add_move e cell).mark_safe cell) := by
  constructor
  · exact hs.mines_true
  · exact hs.safes_false
  · intro c hc
    rcases mem_setAdd.mp hc with h | rfl
    · exact hs.moves_false c h
    · exact hM
  · intro s hsm c hc
    obtain ⟨t, ht, rfl⟩ := List.mem_map.mp hsm
    have h1 := Sentence.mark_safe_cells_sub hc
    have h2 : c ≠ cell := fun hcc => Sentence.mark_safe_not_mem t cell (hcc ▸ hc)
    obtain ⟨hm, hsafe, hmine⟩ := hs.clean t ht c h1
    refine ⟨fun hmem => ?_, hsafe, hmine⟩
    rcases mem_setAdd.mp hmem with h | h
    · exact hm h
    · exact h2 h
  · intro s hsm
    obtain ⟨t, ht, rfl⟩ := List.mem_map.mp hsm
    exact (Sentence.mark_safe_sound (hs.nodup t ht) (hs.kcount t ht) hM).2
  · intro s hsm
    obtain ⟨t, ht, rfl⟩ := List.mem_map.mp hsm
    exact (Sentence.mark_safe_sound (hs.nodup t ht) (hs.kcount t ht) hM).1

theorem sound_applyMines {M : Cell → Bool} :
    ∀ (ms : List Cell) (e : MinesweeperAI), SoundInv M e → (∀ c ∈ ms, M c = true) →
      SoundInv M (MinesweeperAI.applyMines e ms) := by
  intro ms
  induction ms with
  | nil => intro e hs _; exact hs
  | cons c t ih =>
    intro e hs hms
    simp only [MinesweeperAI.applyMines]
    apply ih
    · constructor
      · intro x hx
        rcases mem_setAdd.mp hx with h | rfl
        · exact hs.mines_true x h
        · exact hms x (List.mem_cons_self _ _)
      · exact hs.safes_false
      · exact hs.moves_false
      · intro s hsm y hy
        obtain ⟨u, hu, rfl⟩ := List.mem_map.mp hsm
        have h1 := Sentence.mark_mine_cells_sub hy
        have h2 : y ≠ c := fun hyc => Sentence.mark_mine_not_mem u c (hyc ▸ hy)
        obtain ⟨hm, hsafe, hmine⟩ := hs.clean u hu y h1
        refine ⟨hm, hsafe, fun hmem => ?_⟩
        rcases mem_setAdd.mp hmem with h | h
        · exact hmine h
        · exact h2 h
      · intro s hsm
        obtain ⟨u, hu, rfl⟩ := List.mem_map.mp hsm
        exact Sentence.mark_mine_nodup c (hs.nodup u hu)
      · intro s hsm
        obtain ⟨u, hu, rfl⟩ := List.mem_map.mp hsm
        exact (Sentence.mark_mine_sound (hs.nodup u hu) (hs.kcount u hu)
          (hms c (List.mem_cons_self _ _))).1
    · intro x hx
      exact hms x (List.mem_cons_of_mem _ hx)

theorem sound_applySafes {M : Cell → Bool} :
    ∀ (ss : List Cell) (e : MinesweeperAI), SoundInv M e → (∀ c ∈ ss, M c = false) →
      SoundInv M (MinesweeperAI.applySafes e ss) := by
  intro ss
  induction ss with
  | nil => intro e hs _; exact hs
  | cons c t ih =>
    intro e hs hss
    simp only [MinesweeperAI.applySafes]
    by_cases hc : c ∈ e.moves_made
    · rw [if_pos hc]
      exact ih e hs (fun x hx => hss x (List.mem_cons_of_mem _ hx))
    · rw [if_neg hc]
      apply ih
      · constructor
        · exact hs.mines_true
        · intro x hx
          rcases mem_setAdd.mp hx with h | rfl
          · exact hs.safes_false x h
          · exact hss x (List.mem_cons_self _ _)
        · exact hs.moves_false
        · intro s hsm y hy
          obtain ⟨u, hu, rfl⟩ := List.mem_map.mp hsm
          have h1 := Sentence.mark_safe_cells_sub hy
          have h2 : y ≠ c := fun hyc => Sentence.mark_safe_not_mem u c (hyc ▸ hy)
          obtain ⟨hm, hsafe, hmine⟩ := hs.clean u hu y h1
          refine ⟨hm, fun hmem => ?_, hmine⟩
          rcases mem_setAdd.mp hmem with h | h
          · exact hsafe h
          · exact h2 h
        · intro s hsm
          obtain ⟨u, hu, rfl⟩ := List.mem_map.mp hsm
          exact (Sentence.mark_safe_sound (hs.nodup u hu) (hs.kcount u hu)
            (hss c (List.mem_cons_self _ _))).2
        · intro s hsm
          obtain ⟨u, hu, rfl⟩ := List.mem_map.mp hsm
          exact (Sentence.mark_safe_sound (hs.nodup u hu) (hs.kcount u hu)
            (hss c (List.mem_cons_self _ _))).1
      · intro x hx
        exact hss x (List.mem_cons_of_mem _ hx)

theorem sound_mmsStep {M : Cell → Bool} (e : MinesweeperAI) (i : Nat)
    (hs : SoundInv M e) : SoundInv M (MinesweeperAI.mmsStep e i) := by
  unfold MinesweeperAI.mmsStep
  cases hget : e.knowledge.get? i with
  | none => exact hs
  | some s =>
    have hsmem : s ∈ e.knowledge := List.get?_mem hget
    have h1 : SoundInv M (MinesweeperAI.applyMines e s.known_mines) :=
      sound_applyMines _ _ hs (known_mines_true (hs.kcount s hsmem))
    exact sound_applySafes _ _ h1 (known_safes_false (hs.kcount s hsmem))

theorem sound_mark_mines_safes {M : Cell → Bool} {e : MinesweeperAI}
    (hs : SoundInv M e) : SoundInv M e.mark_mines_safes := by
  unfold MinesweeperAI.mark_mines_safes
  exact foldl_inv (fun a i ha => sound_mmsStep a i ha) _ e hs

theorem sound_clean_empty {M : Cell → Bool} {e : MinesweeperAI}
    (hs : SoundInv M e) : SoundInv M e.clean_empty_sentences := by
  constructor
  · exact hs.mines_true
  · exact hs.safes_false
  · exact hs.moves_false
  · intro s hsm; exact hs.clean s (ce_knowledge_mem hsm)
  · intro s hsm; exact hs.nodup s (ce_knowledge_mem hsm)
  · intro s hsm; exact hs.kcount s (ce_knowledge_mem hsm)

theorem sound_clean_identical {M : Cell → Bool} {e : MinesweeperAI}
    (hs : SoundInv M e) : SoundInv M e.clean_identical_sentences := by
  constructor
  · exact hs.mines_true
  · exact hs.safes_false
  · exact hs.moves_false
  · intro s hsm; exact hs.clean s (cid_knowledge_mem hsm)
  · intro s hsm; exact hs.nodup s (cid_knowledge_mem hsm)
  · intro s hsm; exact hs.kcount s (cid_knowledge_mem hsm)

theorem sound_ces {M : Cell → Bool} {e : MinesweeperAI}
    (hs : SoundInv M e) : SoundInv M e.clean_exceuted_safes := by
  constructor
  · exact hs.mines_true
  · intro c hc
    exact hs.safes_false c (ces_safes_mem hc).1
  · exact hs.moves_false
  · intro s hsm c hc
    rw [ces_knowledge] at hsm
    obtain ⟨hm, hsafe, hmine⟩ := hs.clean s hsm c hc
    exact ⟨hm, fun h2 => hsafe (ces_safes_mem h2).1, hmine⟩
  · intro s hsm
    rw [ces_knowledge] at hsm
    exact hs.nodup s hsm
  · intro s hsm
    rw [ces_knowledge] at hsm
    exact hs.kcount s hsm

theorem pyAbs_eq_of_nonneg {x : Int} (h : 0 ≤ x) : pyAbs x = x := by
  unfold pyAbs
  split <;> omega

theorem nodup_subset_length_le {l1 l2 : List Cell} (h : l1.Nodup) (hs : l1 ⊆ l2) :
    l1.length ≤ l2.length := by
  calc l1.length = l1.toFinset.card := (List.toFinset_card_of_nodup h).symm
    _ ≤ l2.toFinset.card := Finset.card_le_card (fun x hx => by
        rw [List.mem_toFinset] at hx ⊢
        exact hs hx)
    _ ≤ l2.length := l2.toFinset_card_le

theorem countP_split (p q : Cell → Bool) :
    ∀ l : List Cell,
      l.countP p = (l.filter q).countP p + (l.filter (fun x => !(q x))).countP p := by
  intro l
  induction l with
  | nil => simp
  | cons a t ih =>
    by_cases hq : q a = true
    · rw [List.countP_cons, List.filter_cons, List.filter_cons, hq]
      simp only [if_true, Bool.not_true]
      rw [List.countP_cons]
      simp only [Bool.false_eq_true, if_false]
      omega
    · rw [List.countP_cons, List.filter_cons, List.filter_cons, Bool.not_eq_true] at *
      rw [hq]
      simp only [Bool.false_eq_true, if_false, Bool.not_false, if_true]
      rw [List.countP_cons]
      omega

/-- Same number of mines in two duplicate-free lists with the same members. -/
theorem countP_eq_of_nodup_mem_iff {p : Cell → Bool} {l1 l2 : List Cell}
    (h1 : l1.Nodup) (h2 : l2.Nodup) (hmem : ∀ x, x ∈ l1 ↔ x ∈ l2) :
    l1.countP p = l2.countP p :=
  List.Perm.countP_eq p ((List.perm_ext_iff_of_nodup h1 h2).mpr hmem)

theorem sound_subset_pass {M : Cell → Bool} {e : MinesweeperAI}
    (hs : SoundInv M e) : SoundInv M e.subset_pass := by
  have key : ∀ ns ∈ subInfer e.knowledge e.moves_made e.safes e.mines,
      (∀ c ∈ ns.cells, c ∉ e.moves_made ∧ c ∉ e.safes ∧ c ∉ e.mines) ∧
      ns.cells.Nodup ∧ ns.count = countMines M ns.cells := by
    intro ns hns
    obtain ⟨s, hsm, s1, hs1m, hall, rfl⟩ := subInfer_mem hns
    have hsubP : ∀ x ∈ s.cells, x ∈ s1.cells := by
      intro x hx
      have := List.all_eq_true.mp hall x hx
      exact of_decide_eq_true this
    -- the outer filter of the candidate is the identity: the cells of s1 are
    -- never already-known cells
    have hfilter_id : (subCandidate e.moves_made e.safes e.mines s s1).cells =
        s1.cells.filter (fun c => decide (c ∉ s.cells)) := by
      unfold subCandidate
      apply List.filter_eq_self.mpr
      intro x hx
      have hx1 : x ∈ s1.cells := (List.mem_filter.mp hx).1
      obtain ⟨hm, hsafe, hmine⟩ := hs.clean s1 hs1m x hx1
      simp only [decide_eq_true_eq]
      push_neg
      exact ⟨hm, hsafe, hmine⟩
    have hnd1 := hs.nodup s1 hs1m
    have hnds := hs.nodup s hsm
    -- countP over the subset and the difference
    have hsplit := countP_split M (fun c => decide (c ∈ s.cells)) s1.cells
    have hconv : s1.cells.filter (fun x => !(decide (x ∈ s.cells))) =
        s1.cells.filter (fun c => decide (c ∉ s.cells)) := by
      apply List.filter_congr
      intro x _
      rw [decide_not]
    rw [hconv] at hsplit
    have heqs : (s1.cells.filter (fun c => decide (c ∈ s.cells))).countP M =
        s.cells.countP M := by
      apply countP_eq_of_nodup_mem_iff (hnd1.filter _) hnds
      intro x
      rw [List.mem_filter]
      simp only [decide_eq_true_eq]
      exact ⟨fun h => h.2, fun h => ⟨hsubP x h, h⟩⟩
    -- s has at most as many mines as s1
    have hle : s.cells.countP M ≤ s1.cells.countP M := by
      rw [List.countP_eq_length_filter, List.countP_eq_length_filter]
      apply nodup_subset_length_le (hnds.filter _)
      intro x hx
      rw [List.mem_filter] at hx ⊢
      exact ⟨hsubP x hx.1, hx.2⟩
    refine ⟨fun c hc => subCandidate_cells_clean hc, ?_, ?_⟩
    · rw [hfilter_id]
      exact hnd1.filter _
    · show pyAbs (s1.count - s.count) = _
      rw [hs.kcount s hsm, hs.kcount s1 hs1m]
      unfold countMines
      rw [pyAbs_eq_of_nonneg (by omega)]
      rw [hfilter_id]
      omega
  constructor
  · exact hs.mines_true
  · exact hs.safes_false
  · exact hs.moves_false
  · intro s hsm c hc
    rcases List.mem_append.mp hsm with h | h
    · exact hs.clean s h c hc
    · exact (key s h).1 c hc
  · intro s hsm
    rcases List.mem_append.mp hsm with h | h
    · exact hs.nodup s h
    · exact (key s h).2.1
  · intro s hsm
    rcases List.mem_append.mp hsm with h | h
    · exact hs.kcount s h
    · exact (key s h).2.2

/-- Closed form of the neighbor-filtering fold in `add_sentence`: the kept
cells are the neighbors that are not known mines, known safes or made moves,
and the count is decremented once per neighbor that is a known mine. -/
theorem buildFold (mines safes moves : List Cell) :
    ∀ (l : List Cell) (acc : List Cell × Int),
      l.foldl (fun (acc : List Cell × Int) c1 =>
          if c1 ∈ mines then (acc.1, acc.2 - 1)
          else if c1 ∈ safes ∨ c1 ∈ moves then acc
          else (acc.1 ++ [c1], acc.2)) acc =
        (acc.1 ++ l.filter (fun c1 =>
            decide (c1 ∉ mines) && decide (¬(c1 ∈ safes ∨ c1 ∈ moves))),
          acc.2 - (l.countP (fun c1 => decide (c1 ∈ mines)) : Int)) := by
  intro l
  induction l with
  | nil => intro acc; simp
  | cons c1 t ih =>
    intro acc
    rw [List.foldl_cons]
    by_cases h1 : c1 ∈ mines
    · rw [if_pos h1, ih, List.filter_cons, List.countP_cons]
      have hd1 : (decide (c1 ∉ mines) && decide (¬(c1 ∈ safes ∨ c1 ∈ moves))) = false := by
        simp [h1]
      have hd2 : (decide (c1 ∈ mines)) = true := by simp [h1]
      rw [hd1, hd2]
      simp only [Bool.false_eq_true, if_false, if_true]
      refine Prod.ext rfl ?_
      show acc.2 - 1 - _ = acc.2 - _
      push_cast
      ring
    · rw [if_neg h1]
      by_cases h2 : c1 ∈ safes ∨ c1 ∈ moves
      · rw [if_pos h2, ih, List.filter_cons, List.countP_cons]
        have hd1 : (decide (c1 ∉ mines) && decide (¬(c1 ∈ safes ∨ c1 ∈ moves))) = false := by
          simp [h2]
        have hd2 : (decide (c1 ∈ mines)) = false := by simp [h1]
        rw [hd1, hd2]
        simp
      · rw [if_neg h2, ih, List.filter_cons, List.countP_cons]
        have hd1 : (decide (c1 ∉ mines) && decide (¬(c1 ∈ safes ∨ c1 ∈ moves))) = true := by
          simp [h1, h2]
        have hd2 : (decide (c1 ∈ mines)) = false := by simp [h1]
        rw [hd1, hd2]
        simp only [Bool.false_eq_true, if_false, if_true]
        refine Prod.ext ?_ rfl
        show (acc.1 ++ [c1]) ++ _ = acc.1 ++ (c1 :: _)
        rw [List.append_assoc, List.singleton_append]

/-- Counting mines among the kept neighbors: dropped known-mine neighbors
are mines of the layout, dropped known-safe/made-move neighbors are not. -/
theorem countMines_build_split (M : Cell → Bool) (mines safes moves : List Cell)
    (hm : ∀ c ∈ mines, M c = true) (hsf : ∀ c ∈ safes, M c = false)
    (hmv : ∀ c ∈ moves, M c = false) :
    ∀ l : List Cell,
      countMines M (l.filter (fun c1 =>
          decide (c1 ∉ mines) && decide (¬(c1 ∈ safes ∨ c1 ∈ moves)))) =
        countMines M l - (l.countP (fun c1 => decide (c1 ∈ mines)) : Int) := by
  intro l
  induction l with
  | nil => simp [countMines]
  | cons c t ih =>
    unfold countMines at ih ⊢
    rw [List.filter_cons, List.countP_cons, List.countP_cons]
    by_cases h1 : c ∈ mines
    · have hd1 : (decide (c ∉ mines) && decide (¬(c ∈ safes ∨ c ∈ moves))) = false := by
        simp [h1]
      have hd2 : (decide (c ∈ mines)) = true := by simp [h1]
      have hMc : M c = true := hm c h1
      rw [hd1, hd2, hMc]
      simp only [Bool.false_eq_true, if_false, if_true]
      omega
    · by_cases h2 : c ∈ safes ∨ c ∈ moves
      · have hd1 : (decide (c ∉ mines) && decide (¬(c ∈ safes ∨ c ∈ moves))) = false := by
          simp [h2]
        have hd2 : (decide (c ∈ mines)) = false := by simp [h1]
        have hMc : M c = false := by
          rcases h2 with h | h
          · exact hsf c h
          · exact hmv c h
        rw [hd1, hd2, hMc]
        simp only [Bool.false_eq_true, if_false]
        omega
      · have hd1 : (decide (c ∉ mines) && decide (¬(c ∈ safes ∨ c ∈ moves))) = true := by
          simp [h1, h2]
        have hd2 : (decide (c ∈ mines)) = false := by simp [h1]
        rw [hd1, hd2]
        simp only [Bool.false_eq_true, if_false, if_true]
        rw [List.countP_cons]
        by_cases hMc : M c = true
        · rw [hMc]
          simp only [if_true]
          omega
        · rw [Bool.not_eq_true] at hMc
          rw [hMc]
          simp only [Bool.false_eq_true, if_false]
          omega

theorem sound_add_sentence {M : Cell → Bool} {e : MinesweeperAI} (cell : Cell)
    (count : Int) (hs : SoundInv M e)
    (hcount : count = countMines M (e.neighbors cell)) :
    SoundInv M (MinesweeperAI.add_sentence e cell count) := by
  simp only [MinesweeperAI.add_sentence, buildFold, List.nil_append]
  split
  · split
    · exact hs
    · constructor
      · exact hs.mines_true
      · exact hs.safes_false
      · exact hs.moves_false
      · intro s hsm c hc
        rcases List.mem_append.mp hsm with h | h
        · exact hs.clean s h c hc
        · have hs2 := List.mem_singleton.mp h
          subst hs2
          have h2 := List.mem_filter.mp hc
          have h3 := h2.2
          simp only [Bool.and_eq_true, decide_eq_true_eq] at h3
          push_neg at h3
          exact ⟨h3.2.2, h3.2.1, h3.1⟩
      · intro s hsm
        rcases List.mem_append.mp hsm with h | h
        · exact hs.nodup s h
        · have hs2 := List.mem_singleton.mp h
          subst hs2
          exact (neighbors_nodup e cell).filter _
      · intro s hsm
        rcases List.mem_append.mp hsm with h | h
        · exact hs.kcount s h
        · have hs2 := List.mem_singleton.mp h
          subst hs2
          show count - _ = countMines M _
          rw [countMines_build_split M e.mines e.safes e.moves_made hs.mines_true
            hs.safes_false hs.moves_false, ← hcount]
  · exact hs

theorem neighbors_congr {e f : MinesweeperAI} (hh : e.height = f.height)
    (hw : e.width = f.width) (c : Cell) : e.neighbors c = f.neighbors c := by
  unfold MinesweeperAI.neighbors
  rw [hh, hw]

/-- `SoundInv` is preserved by a truthful `add_knowledge` call: the revealed
cell is not a mine of the layout and the clue is the exact number of
neighboring mines. -/
theorem sound_add_knowledge {M : Cell → Bool} {e : MinesweeperAI} (cell : Cell)
    (count : Int) (hs : SoundInv M e) (hM : M cell = false)
    (hcount : count = countMines M (e.neighbors cell)) :
    SoundInv M (e.add_knowledge cell count) := by
  unfold MinesweeperAI.add_knowledge
  apply sound_ces
  apply sound_clean_identical
  apply sound_clean_empty
  apply sound_mark_mines_safes
  apply sound_subset_pass
  apply sound_clean_identical
  apply sound_clean_empty
  apply sound_mark_mines_safes
  apply sound_add_sentence cell count (sound_reveal cell hM hs)
  rw [neighbors_congr (e := (MinesweeperAI.add_move e cell).mark_safe cell) (f := e) rfl rfl]
  exact hcount

/-- A call sequence is truthful for the layout `M` on an `h × w` grid: every
revealed cell is not a mine and every clue is the exact number of
neighboring mines. -/
def ValidCalls (M : Cell → Bool) (h w : Int) (calls : List (Cell × Int)) : Prop :=
  ∀ p ∈ calls, M p.1 = false ∧
    p.2 = countMines M ((MinesweeperAI.init h w).neighbors p.1)

theorem sound_runCalls (M : Cell → Bool) (h w : Int) (calls : List (Cell × Int))
    (hv : ValidCalls M h w calls) : SoundInv M (runCalls h w calls) := by
  have main : ∀ (cs : List (Cell × Int)) (e : MinesweeperAI), SoundInv M e →
      e.height = h → e.width = w →
      (∀ p ∈ cs, M p.1 = false ∧
        p.2 = countMines M ((MinesweeperAI.init h w).neighbors p.1)) →
      SoundInv M (cs.foldl (fun e p => e.add_knowledge p.1 p.2) e) := by
    intro cs
    induction cs with
    | nil => intro e he _ _ _; exact he
    | cons p t ih =>
      intro e he hh hw hcs
      rw [List.foldl_cons]
      obtain ⟨hM, hcount⟩ := hcs p (List.mem_cons_self _ _)
      apply ih
      · apply sound_add_knowledge p.1 p.2 he hM
        rw [neighbors_congr (f := MinesweeperAI.init h w) hh hw]
        exact hcount
      · rw [MinesweeperAI.add_knowledge_height]; exact hh
      · rw [MinesweeperAI.add_knowledge_width]; exact hw
      · intro q hq
        exact hcs q (List.mem_cons_of_mem _ hq)
  exact main calls _ (sound_init M h w) rfl rfl hv

/-- Amended C5: whenever every clue reported to `add_knowledge` is truthful
for some mine layout `M` (the revealed cell is not a mine and the clue is
the exact neighboring-mine count), after any sequence of calls every
sentence in the knowledge base satisfies `0 ≤ count ≤ |cells|`. -/
theorem C5_amended (h w : Int) (M : Cell → Bool) (calls : List (Cell × Int))
    (hv : ValidCalls M h w calls) (s : Sentence)
    (hsm : s ∈ (runCalls h w calls).knowledge) :
    0 ≤ s.count ∧ s.count ≤ (s.cells.length : Int) := by
  have hs := sound_runCalls M h w calls hv
  rw [hs.kcount s hsm]
  exact ⟨countMines_nonneg M s.cells, countMines_le_length M s.cells⟩

/-- Witness for C5 (amended): on a 2×2 grid with a single mine at `(1, 1)`
and the truthful call `add_knowledge (0,0) 1`, the sentence
`{(0,1),(1,0),(1,1)} : 1` is in the knowledge base and the theorem certifies
its count bounds. -/
theorem C5_witness :
    ValidCalls (fun c => decide (c = ((1 : Int), (1 : Int)))) 2 2
      [(((0 : Int), (0 : Int)), 1)] ∧
    (Sentence.mk [((0 : Int), (1 : Int)), ((1 : Int), (0 : Int)), ((1 : Int), (1 : Int))] 1) ∈
      (runCalls 2 2 [(((0 : Int), (0 : Int)), 1)]).knowledge ∧
    (0 ≤ (Sentence.mk [((0 : Int), (1 : Int)), ((1 : Int), (0 : Int)), ((1 : Int), (1 : Int))] 1).count ∧
      (Sentence.mk [((0 : Int), (1 : Int)), ((1 : Int), (0 : Int)), ((1 : Int), (1 : Int))] 1).count ≤
        ((Sentence.mk [((0 : Int), (1 : Int)), ((1 : Int), (0 : Int)), ((1 : Int), (1 : Int))] 1).cells.length : Int)) := by
  have hv : ValidCalls (fun c => decide (c = ((1 : Int), (1 : Int)))) 2 2
      [(((0 : Int), (0 : Int)), 1)] := by
    intro p hp
    rcases List.mem_singleton.mp hp with rfl
    exact ⟨by decide, by decide⟩
  refine ⟨hv, by decide, ?_⟩
  exact C5_amended 2 2 (fun c => decide (c = ((1 : Int), (1 : Int))))
    [(((0 : Int), (0 : Int)), 1)] hv
    (Sentence.mk [((0 : Int), (1 : Int)), ((1 : Int), (0 : Int)), ((1 : Int), (1 : Int))] 1)
    (by decide)

/-! ### C5: sentence counts are not bounded by the cell count in general -/

/-- Counterexample for C5: a single call `add_knowledge (0,0) 9` on a fresh
3×3 engine leaves the sentence `{(0,1),(1,0),(1,1)} : 9` in the knowledge
base, violating `count ≤ |cells|` (9 > 3); `add_knowledge` accepts arbitrary
clue counts, so the claimed invariant fails as stated. -/
theorem C5_counterexample :
    ¬ (∀ s ∈ (runCalls 3 3 [(((0 : Int), (0 : Int)), 9)]).knowledge,
        0 ≤ s.count ∧ s.count ≤ (s.cells.length : Int)) := by
  decide

end Minesweeper
